import Mathlib

/-!
# bamgoo/log: a shallow embedding of the dispatch core

The Go package `log` (const.go, driver.go, default.go, instance.go, module.go)
is embedded as pure Lean functions.

* Go maps are association lists with unique keys (`mapSet` replaces in place
  or appends); a nil map is `none`.  Where the source ranges over the constant
  map `levelStrings`, the order of the iteration is a parameter (`order`),
  because Go leaves it unspecified; the theorems quantify over every
  permutation of the map.
* `int`, `int64` and `time.Duration` values are mathematical integers
  (durations in nanoseconds); `Time.UnixNano` wraps to 64 bits as in Go.
* Strings are Lean strings, that is sequences of Unicode characters; a Go
  string that is not valid UTF-8 has no counterpart.  The patterns the package
  searches for are ASCII, for which a search over characters and a search over
  bytes agree.
* Functions of the Go standard library whose behaviour is outside the
  repository (`time.Time.Format`, `json.Marshal`, `fmt.Sprintf`,
  `strings.ToUpper`) are parameters of the functions that call them.
  `strings.Count`, `strings.ReplaceAll` and `strconv.FormatInt` are written out.
* A connection of a driver is a record of the calls made on it together with
  the answers of its methods.
* The engine (`Module`) is an explicit state.  The channel is a bounded FIFO,
  the background goroutine is a `Worker` record, the first two cases of its
  `select` are the transitions `recv` and `tick`, and its stop case is part of
  the transition `Module.Stop`.  Every transition is atomic.
-/

namespace BamgooLog

/-! ## const.go -/

/-- A severity: `type Level = int`. -/
abbrev Level := Int

def LevelFatal : Level := 0
def LevelPanic : Level := 1
def LevelError : Level := 2
def LevelWarning : Level := 3
def LevelNotice : Level := 4
def LevelInfo : Level := 5
def LevelTrace : Level := 6
def LevelDebug : Level := 7

/-- The constant map `levelStrings`, in the order of its literal. -/
def levelStrings : List (Level × String) :=
  [(LevelFatal, "FATAL"), (LevelPanic, "PANIC"), (LevelError, "ERROR"),
   (LevelWarning, "WARNING"), (LevelNotice, "NOTICE"), (LevelInfo, "INFO"),
   (LevelTrace, "TRACE"), (LevelDebug, "DEBUG")]

/-! ## Go maps as association lists -/

/-- Map lookup `m[k]` with presence: the value stored under `k`, if any. -/
def mapGet {κ ν : Type} [DecidableEq κ] : List (κ × ν) → κ → Option ν
  | [], _ => none
  | (k, v) :: rest, key => if k = key then some v else mapGet rest key

/-- Map assignment `m[k] = v`: replaces the entry of `k` or adds one. -/
def mapSet {κ ν : Type} [DecidableEq κ] : List (κ × ν) → κ → ν → List (κ × ν)
  | [], key, val => [(key, val)]
  | (k, v) :: rest, key, val =>
    if k = key then (k, val) :: rest else (k, v) :: mapSet rest key val

/-- The builtin `len` of a possibly nil map. -/
def mapLen {κ ν : Type} : Option (List (κ × ν)) → Nat
  | none => 0
  | some m => m.length

/-! ## Dynamic values (`any`) -/

/-- The dynamically typed values the package inspects by type switch; `other`
stands for a value of any other dynamic type. -/
inductive Any where
  | null
  | bool (b : Bool)
  | int (n : Int)
  | int64 (n : Int)
  | float64 (q : Rat)
  | str (s : String)
  | duration (d : Int)
  | strs (xs : List String)
  | list (xs : List Any)
  | map (kv : List (String × Any))
  | other (tag : String)

/-- The type `Map` of the base package: `map[string]any`, nil when `none`. -/
abbrev Map := Option (List (String × Any))

/-! ## Functions of the package strings -/

/-- Whether the text `s` begins with the pattern `p`. -/
def startsWith : List Char → List Char → Bool
  | [], _ => true
  | _ :: _, [] => false
  | a :: p, b :: s => a == b && startsWith p s

/-- The scan of `strings.Count` for a non-empty pattern: matches are counted
from left to right and do not overlap; `skip` is the number of characters
still covered by the last match. -/
def countFrom (sub : List Char) : Nat → List Char → Nat
  | _, [] => 0
  | skip + 1, _ :: rest => countFrom sub skip rest
  | 0, c :: rest =>
    if startsWith sub (c :: rest) then 1 + countFrom sub (sub.length - 1) rest
    else countFrom sub 0 rest

/-- `strings.Count(s, substr)`: the number of non-overlapping instances of
`substr` in `s`, and one more than the number of characters of `s` when
`substr` is empty. -/
def stringsCount (s substr : String) : Nat :=
  if substr.data = [] then s.data.length + 1 else countFrom substr.data 0 s.data

/-- The scan of `strings.ReplaceAll` for a non-empty pattern: every match,
from left to right and without overlap, is replaced by `new`. -/
def replaceFrom (old new : List Char) : Nat → List Char → List Char
  | _, [] => []
  | skip + 1, _ :: rest => replaceFrom old new skip rest
  | 0, c :: rest =>
    if startsWith old (c :: rest) then new ++ replaceFrom old new (old.length - 1) rest
    else c :: replaceFrom old new 0 rest

/-- `strings.ReplaceAll(s, old, new)`; with an empty `old`, `new` is put
before the first character and after every character. -/
def stringsReplaceAll (s old new : String) : String :=
  if old.data = [] then String.mk (new.data ++ (s.data.map (fun c => c :: new.data)).flatten)
  else String.mk (replaceFrom old.data new.data 0 s.data)

/-- `strconv.FormatInt(n, 10)`. -/
def formatInt (n : Int) : String := toString n

/-! ## module.go: types -/

/-- An instant `time.Time`: seconds since the Unix epoch and the nanoseconds
within that second. -/
structure Time where
  sec : Int
  nsec : Int
  deriving DecidableEq, Repr

/-- Two's complement wrap-around of a 64-bit signed integer. -/
def wrapInt64 (x : Int) : Int := (x + 2 ^ 63) % 2 ^ 64 - 2 ^ 63

/-- The zero `time.Time`: 1 January of year 1, 00:00:00 UTC. -/
def Time.zero : Time := ⟨-62135596800, 0⟩

def Time.IsZero (t : Time) : Bool := t.sec == -62135596800 && t.nsec == 0

def Time.Unix (t : Time) : Int := t.sec

def Time.UnixNano (t : Time) : Int := wrapInt64 (t.sec * 1000000000 + t.nsec)

structure Config where
  Driver : String
  Level : Level
  Levels : Option (List (BamgooLog.Level × Bool))
  Json : Bool
  Buffer : Int
  Timeout : Int
  Flag : String
  Format : String
  Setting : Map

structure Log where
  Time : Time
  Level : Level
  Body : String
  deriving DecidableEq, Repr

/-! ## driver.go -/

/-- A connection of a driver, seen from the engine: what has been called on
it so far, and what each of its methods answers. -/
structure Connect where
  opens : Nat
  closes : Nat
  writes : List (List Log)
  openErr : Option String
  closeErr : Option String
  writeErr : List Log → Option String

/-- The method `Open` of a connection: the connection afterwards and the error. -/
def Connect.Open (c : Connect) : Connect × Option String :=
  ({ c with opens := c.opens + 1 }, c.openErr)

/-- The method `Close` of a connection. -/
def Connect.Close (c : Connect) : Connect × Option String :=
  ({ c with closes := c.closes + 1 }, c.closeErr)

/-- The method `Write(logs ...Log)` of a connection: the call is recorded with
its arguments. -/
def Connect.Write (c : Connect) (logs : List Log) : Connect × Option String :=
  ({ c with writes := c.writes ++ [logs] }, c.writeErr logs)

/-- A driver: `Connect` is given the instance (its name and config; the
setting is the config's) and answers a connection or an error. -/
structure Driver where
  Connect : String → Config → Except String Connect

/-! ## instance.go -/

structure Instance where
  connect : Connect
  Name : String
  Config : Config
  Setting : Map

/-- The map lookup `levelStrings[level]`: the empty string for a missing key. -/
def levelName (level : Level) : String := (mapGet levelStrings level).getD ""

/-- `Instance.Format`; `timeFormat` is `Time.Format("2006-01-02 15:04:05.000")`
and `jsonMarshal` is `json.Marshal` applied to the map with the listed entries. -/
def Instance.Format (timeFormat : Time → String)
    (jsonMarshal : List (String × Any) → String) (inst : Instance) (entry : Log) : String :=
  if inst.Config.Json then
    jsonMarshal
      [("time", .str (timeFormat entry.Time)),
       ("unix", .int64 entry.Time.Unix),
       ("nano", .int64 entry.Time.UnixNano),
       ("level", .str (levelName entry.Level)),
       ("name", .str inst.Name),
       ("flag", .str inst.Config.Flag),
       ("body", .str entry.Body)]
  else
    let message := if inst.Config.Format = "" then "%time% [%level%] %body%"
      else inst.Config.Format
    let message := stringsReplaceAll message "%nano%" (formatInt entry.Time.UnixNano)
    let message := stringsReplaceAll message "%unix%" (formatInt entry.Time.Unix)
    let message := stringsReplaceAll message "%time%" (timeFormat entry.Time)
    let message := stringsReplaceAll message "%name%" inst.Name
    let message := stringsReplaceAll message "%flag%" inst.Config.Flag
    let message := stringsReplaceAll message "%level%" (levelName entry.Level)
    let message := stringsReplaceAll message "%body%" entry.Body
    message

/-- `Instance.Allow`: `inst.Config.Levels[level]`, false for a missing key
and for a nil map. -/
def Instance.Allow (inst : Instance) (level : Level) : Bool :=
  match inst.Config.Levels with
  | none => false
  | some m => (mapGet m level).getD false

/-- `normalizeLevels`; `order` is the order in which `range levelStrings`
yields the entries of the map. -/
def normalizeLevels (order : List (Level × String)) (cfg : Config) : Config :=
  if mapLen cfg.Levels > 0 then cfg
  else
    { cfg with
      Levels := some (order.foldl
        (fun acc entry => if entry.1 ≤ cfg.Level then mapSet acc entry.1 true else acc) []) }

/-- `normalizeConfig`: each of its six `if` statements reads and assigns one
field of the copy `cfg`, so they are written as the fields of one record;
`normalizeLevels` runs last.  Durations are in nanoseconds. -/
def normalizeConfig (order : List (Level × String)) (cfg : Config) : Config :=
  normalizeLevels order
    { Driver := if cfg.Driver = "" then "default" else cfg.Driver
      Levels := if cfg.Levels = none then some [] else cfg.Levels
      Level := if cfg.Level < LevelFatal ∨ cfg.Level > LevelDebug then LevelDebug else cfg.Level
      Format := if cfg.Format = "" then "%time% [%level%] %body%" else cfg.Format
      Buffer := if cfg.Buffer ≤ 0 then 1024 else cfg.Buffer
      Timeout := if cfg.Timeout ≤ 0 then 200 * 1000000 else cfg.Timeout
      Json := cfg.Json
      Flag := cfg.Flag
      Setting := cfg.Setting }

/-! ## module.go: parsing of loosely typed settings -/

/-- The conversion `Level(v)` of a `float64`: the fraction is discarded
(truncation toward zero). -/
def truncFloat (q : Rat) : Int := Int.tdiv q.num q.den

/-- `parseLevel`; `toUpper` is `strings.ToUpper` and `order` the order in
which `range levelStrings` yields the entries. -/
def parseLevel (toUpper : String → String) (order : List (Level × String)) :
    Any → Level × Bool
  | .int v => (v, true)
  | .int64 v => (v, true)
  | .float64 v => (truncFloat v, true)
  | .str v =>
    match order.find? (fun entry => toUpper v == entry.2) with
    | some entry => (entry.1, true)
    | none => (LevelDebug, false)
  | _ => (LevelDebug, false)

/-- The loop body of `parseLevels`: `levels[level] = true` when the item parses. -/
def parseLevelsStep (toUpper : String → String) (order : List (Level × String))
    (levels : List (Level × Bool)) (item : Any) : List (Level × Bool) :=
  match parseLevel toUpper order item with
  | (level, true) => mapSet levels level true
  | (_, false) => levels

/-- `parseLevels`: the map of the levels that parse and `true`, or `nil` and
`false` when that map is empty. -/
def parseLevels (toUpper : String → String) (order : List (Level × String))
    (value : Any) : Option (List (Level × Bool)) × Bool :=
  let levels : List (Level × Bool) :=
    match value with
    | .strs v => v.foldl (fun acc item => parseLevelsStep toUpper order acc (.str item)) []
    | .list v => v.foldl (parseLevelsStep toUpper order) []
    | _ => []
  if levels.length = 0 then (none, false) else (some levels, true)

/-- `parseInt`; `atoi` is `strconv.Atoi`, `none` when it answers an error. -/
def parseInt (atoi : String → Option Int) : Any → Int × Bool
  | .int v => (v, true)
  | .int64 v => (v, true)
  | .float64 v => (truncFloat v, true)
  | .str v =>
    match atoi v with
    | some n => (n, true)
    | none => (0, false)
  | _ => (0, false)

/-- `parseDuration`, in nanoseconds; `timeParseDuration` is
`time.ParseDuration`, `none` when it answers an error.  The product with
`time.Second` wraps to 64 bits. -/
def parseDuration (timeParseDuration : String → Option Int) : Any → Int × Bool
  | .duration v => (v, true)
  | .int v => (wrapInt64 (1000000000 * v), true)
  | .int64 v => (wrapInt64 (1000000000 * v), true)
  | .float64 v => (wrapInt64 (1000000000 * truncFloat v), true)
  | .str v =>
    match timeParseDuration v with
    | some d => (d, true)
    | none => (0, false)
  | _ => (0, false)

/-- `castMap`: the type assertion `value.(Map)`. -/
def castMap : Any → Map × Bool
  | .map kv => (some kv, true)
  | _ => (none, false)

/-- The index expression `conf[key]` of a `Map`: the nil value for a missing
key and for a nil map. -/
def mapIndex (conf : Map) (key : String) : Any :=
  match conf with
  | none => .null
  | some kv => (mapGet kv key).getD .null

/-! ## module.go: the engine -/

/-- A channel `chan Log` made with buffer capacity `cap`; `buf` holds the
buffered entries, oldest first.  `Start` makes the channel with a capacity of
at least 1024, and a non-blocking send on a buffered channel succeeds exactly
when the buffer has room. -/
structure Queue where
  cap : Nat
  buf : List Log

/-- The goroutine running `loop`: its argument and its local slice `batch`. -/
structure Worker where
  flushEvery : Int
  batch : List Log

/-- The engine.  `queue` is `none` for a nil channel.  `stopChan` and
`doneChan` are `none` for a nil channel and otherwise tell whether the channel
has been closed.  `worker` is the running `loop` goroutine, if any.  `stderr`
collects the lines `dispatch` prints to the diagnostic stream. -/
structure Module where
  opened : Bool
  started : Bool
  configs : List (String × Config)
  drivers : List (String × Driver)
  instances : List (String × Instance)
  queue : Option Queue
  stopChan : Option Bool
  doneChan : Option Bool
  worker : Option Worker
  stderr : List String

/-- The capacity `cap(batch)` of the slice `make([]Log, 0, 256)` of `loop`;
the slice is flushed as soon as it holds that many entries, so it is never
reallocated before the stop case. -/
def batchCap : Nat := 256

/-- The body of the loop over the instances in `dispatch`: the instance
afterwards and the lines printed to the diagnostic stream. -/
def dispatchTo (entries : List Log) (inst : Instance) : Instance × List String :=
  let filtered := entries.filter (fun entry => inst.Allow entry.Level)
  if filtered.length = 0 then (inst, [])
  else
    match inst.connect.Write filtered with
    | (conn, some err) => ({ inst with connect := conn }, ["log write failed: " ++ err ++ "\n"])
    | (conn, none) => ({ inst with connect := conn }, [])

/-- `Module.dispatch`.  The instances are visited in the order of the list;
the order in which Go ranges over the map only changes the order of the
diagnostic lines. -/
def Module.dispatch (m : Module) (entries : List Log) : Module :=
  { m with
    instances := m.instances.map (fun p => (p.1, (dispatchTo entries p.2).1))
    stderr := m.stderr ++ (m.instances.map (fun p => (dispatchTo entries p.2).2)).flatten }

/-- The first statement of `Module.Write`: an entry with the zero time is
stamped with the current time `now`. -/
def stamp (now : Time) (entry : Log) : Log :=
  if entry.Time.IsZero then { entry with Time := now } else entry

/-- `Module.Write`; `now` is what `time.Now()` answers.  The non-blocking send
succeeds exactly when the buffer of the channel has room. -/
def Module.Write (m : Module) (now : Time) (entry : Log) : Module :=
  let entry := stamp now entry
  match m.started, m.queue with
  | true, some q =>
    if q.buf.length < q.cap then { m with queue := some { q with buf := q.buf ++ [entry] } }
    else m.dispatch [entry]
  | _, _ => m.dispatch [entry]

/-- The closure `flush` of `loop`. -/
def Module.flush (m : Module) : Module :=
  match m.worker with
  | none => m
  | some w =>
    if w.batch.length = 0 then m
    else { m.dispatch w.batch with worker := some { w with batch := [] } }

/-- The case `entry := <-m.queue` of the `select` of `loop`; it is enabled
when the queue holds an entry, and changes nothing otherwise. -/
def Module.recv (m : Module) : Module :=
  match m.worker, m.queue with
  | some w, some q =>
    match q.buf with
    | [] => m
    | entry :: rest =>
      let m1 : Module :=
        { m with queue := some { q with buf := rest }
                 worker := some { w with batch := w.batch ++ [entry] } }
      if (w.batch ++ [entry]).length ≥ batchCap then m1.flush else m1
  | _, _ => m

/-- The case `<-ticker.C` of the `select` of `loop`. -/
def Module.tick (m : Module) : Module := m.flush

/-- `Module.Start`. -/
def Module.Start (m : Module) : Module :=
  if m.started then m
  else
    let bufferSize : Int := m.instances.foldl
      (fun size p => if p.2.Config.Buffer > size then p.2.Config.Buffer else size) 1024
    let flushEvery : Int := m.instances.foldl
      (fun every p =>
        if p.2.Config.Timeout > 0 ∧ p.2.Config.Timeout < every then p.2.Config.Timeout
        else every) (200 * 1000000)
    { m with
      queue := some { cap := bufferSize.toNat, buf := [] }
      stopChan := some false
      doneChan := some false
      worker := some { flushEvery := flushEvery, batch := [] }
      started := true }

/-- The inner loop of the case `<-m.stopChan` of `loop`: entries are received
and appended to the batch until the queue is empty. -/
def drain (batch : List Log) : List Log → List Log
  | [] => batch
  | entry :: rest => drain (batch ++ [entry]) rest

/-- `Module.Stop` together with the case `<-m.stopChan` of `loop`, as one
transition: the flag is cleared, the stop channel closed, the worker moves
every queued entry to its batch, flushes once, closes the done channel and
ends.  The result is `none` when `Stop` does not return: closing a nil stop
channel panics, and with no worker nobody closes the done channel. -/
def Module.Stop (m : Module) : Option Module :=
  if !m.started then some m
  else
    match m.stopChan, m.worker with
    | some _, some w =>
      let queued : List Log := match m.queue with
        | some q => q.buf
        | none => []
      let m1 : Module :=
        { m with
          started := false
          stopChan := some true
          queue := m.queue.map (fun q => { q with buf := [] })
          worker := some { w with batch := drain w.batch queued } }
      some { m1.flush with worker := none, doneChan := some true }
    | _, _ => none

/-- The loop over the configs in `Module.Open`: the engine when the loop ends
or panics, and the panic message. -/
def openLoop (m : Module) : List (String × Config) → Module × Option String
  | [] => (m, none)
  | (name, cfg) :: rest =>
    match mapGet m.drivers cfg.Driver with
    | none => (m, some ("invalid log driver: " ++ cfg.Driver))
    | some driver =>
      match driver.Connect name cfg with
      | .error err => (m, some ("failed to connect log: " ++ err))
      | .ok conn =>
        match conn.Open with
        | (_, some err) => (m, some ("failed to open log: " ++ err))
        | (conn, none) =>
          openLoop
            { m with
              instances := mapSet m.instances name
                { connect := conn, Name := name, Config := cfg, Setting := cfg.Setting } }
            rest

/-- `Module.Open`: the engine afterwards and the panic message, if it panics.
The configs are visited in the order of the list. -/
def Module.Open (m : Module) : Module × Option String :=
  if m.opened then (m, none)
  else
    match openLoop m m.configs with
    | (m1, none) => ({ m1 with opened := true }, none)
    | (m1, some msg) => (m1, some msg)

/-- `Module.Close`: the engine afterwards and, since the instance registry is
cleared, the connections on which `Close` was called, as they are then. -/
def Module.Close (m : Module) : Module × List (String × Connect) :=
  if !m.opened then (m, [])
  else
    ({ m with instances := [], opened := false },
     m.instances.map (fun p => (p.1, p.2.connect.Close.1)))

/-- `Module.parseBody` (its receiver is not used); `sprintf` is `fmt.Sprintf` and `sprint arg` is
`fmt.Sprintf("%v", arg)`. -/
def Module.parseBody (sprintf : String → List Any → String) (sprint : Any → String)
    (args : List Any) : String :=
  match args with
  | [] => ""
  | [arg] => sprint arg
  | first :: rest =>
    let joined := " ".intercalate (args.map sprint)
    match first with
    | .str format =>
      let verbCount : Int := (stringsCount format "%" : Int) - (stringsCount format "%%" : Int)
      if verbCount > 0 ∧ verbCount = (args.length : Int) - 1 then sprintf format rest
      else joined
    | _ => joined

/-- `Module.Logging`; `now` is what `time.Now()` answers. -/
def Module.Logging (m : Module) (sprintf : String → List Any → String)
    (sprint : Any → String) (now : Time) (level : Level) (args : List Any) : Module :=
  m.Write now { Time := now, Level := level, Body := Module.parseBody sprintf sprint args }

/-! ## module.go: registration and configuration -/

/-- What the package takes from outside the repository: the constant
`bamgoo.DEFAULT`, what `bamgoo.Override()` answers, `strings.ToUpper`,
`strconv.Atoi` and `time.ParseDuration` (`none` for an error). -/
structure Host where
  DEFAULT : String
  Override : Bool
  stringsToUpper : String → String
  strconvAtoi : String → Option Int
  timeParseDuration : String → Option Int

/-- `Module.RegisterDriver`; a nil driver is `none`.  The result is the engine
afterwards and the value of the panic, if it panics. -/
def Module.RegisterDriver (h : Host) (m : Module) (name : String) (driver : Option Driver) :
    Module × Option String :=
  let name := if name = "" then h.DEFAULT else name
  match driver with
  | none => (m, some "invalid log driver")
  | some d =>
    if h.Override then ({ m with drivers := mapSet m.drivers name d }, none)
    else
      match mapGet m.drivers name with
      | some _ => (m, none)
      | none => ({ m with drivers := mapSet m.drivers name d }, none)

/-- `Module.RegisterConfig`. -/
def Module.RegisterConfig (h : Host) (m : Module) (name : String) (cfg : Config) : Module :=
  if m.opened then m
  else
    let name := if name = "" then h.DEFAULT else name
    if h.Override then { m with configs := mapSet m.configs name cfg }
    else
      match mapGet m.configs name with
      | some _ => m
      | none => { m with configs := mapSet m.configs name cfg }

/-- `Module.RegisterConfigs`; the configs are visited in the order of the list. -/
def Module.RegisterConfigs (h : Host) (m : Module) (configs : List (String × Config)) :
    Module :=
  configs.foldl (fun acc p => acc.RegisterConfig h p.1 p.2) m

/-- The config `Config{Driver: bamgoo.DEFAULT, Level: LevelDebug}`. -/
def defaultConfig (h : Host) : Config :=
  { Driver := h.DEFAULT, Level := LevelDebug, Levels := none, Json := false, Buffer := 0,
    Timeout := 0, Flag := "", Format := "", Setting := none }

/-- The nine conditional assignments of `Module.configure`: each reads the
settings `conf` and assigns one field of `cfg`, so they are written as the
fields of one record.  `order` is the order of the ranges over `levelStrings`
in `parseLevel`. -/
def configureFields (h : Host) (order : List (Level × String)) (cfg : Config) (conf : Map) :
    Config :=
  { Driver :=
      match mapIndex conf "driver" with
      | .str v => if v ≠ "" then v else cfg.Driver
      | _ => cfg.Driver
    Level :=
      match parseLevel h.stringsToUpper order (mapIndex conf "level") with
      | (v, true) => v
      | (_, false) => cfg.Level
    Levels :=
      match parseLevels h.stringsToUpper order (mapIndex conf "levels") with
      | (levels, true) => levels
      | (_, false) => cfg.Levels
    Json :=
      match mapIndex conf "json" with
      | .bool v => v
      | _ => cfg.Json
    Flag :=
      match mapIndex conf "flag" with
      | .str v => v
      | _ => cfg.Flag
    Format :=
      match mapIndex conf "format" with
      | .str v => v
      | _ => cfg.Format
    Buffer :=
      match parseInt h.strconvAtoi (mapIndex conf "buffer") with
      | (v, true) => if v > 0 then v else cfg.Buffer
      | (_, false) => cfg.Buffer
    Timeout :=
      match parseDuration h.timeParseDuration (mapIndex conf "timeout") with
      | (v, true) => if v > 0 then v else cfg.Timeout
      | (_, false) => cfg.Timeout
    Setting :=
      match castMap (mapIndex conf "setting") with
      | (v, true) => v
      | (_, false) => cfg.Setting }

/-- The config `Module.configure` starts from: the one registered under
`name`, or the default one. -/
def Module.configBase (h : Host) (m : Module) (name : String) : Config :=
  match mapGet m.configs name with
  | some existing => existing
  | none => defaultConfig h

/-- `Module.configure`. -/
def Module.configure (h : Host) (order : List (Level × String)) (m : Module) (name : String)
    (conf : Map) : Module :=
  { m with
    configs := mapSet m.configs name (configureFields h order (m.configBase h name) conf) }

/-- The loop of `Module.Config` over the entries of the `log` map, visited in
the order of the list: the engine and the map `rootConfig` afterwards. -/
def configLoop (h : Host) (order : List (Level × String)) :
    Module → List (String × Any) → List (String × Any) → Module × List (String × Any)
  | m, root, [] => (m, root)
  | m, root, (key, val) :: rest =>
    match castMap val with
    | (conf, true) =>
      if key ≠ "setting" then configLoop h order (m.configure h order key conf) root rest
      else configLoop h order m (mapSet root key val) rest
    | (_, false) => configLoop h order m (mapSet root key val) rest

/-- `Module.Config`. -/
def Module.Config (h : Host) (order : List (Level × String)) (m : Module) (global : Map) :
    Module :=
  if m.opened then m
  else
    match castMap (mapIndex global "log") with
    | (some cfgMap, true) =>
      match configLoop h order m [] cfgMap with
      | (m1, root) =>
        if root.length > 0 then m1.configure h order h.DEFAULT (some root) else m1
    | (_, _) => m

/-- `Module.Setup`; `orders name` is the order of the range over
`levelStrings` in the call of `normalizeConfig` for the config `name`. -/
def Module.Setup (h : Host) (orders : String → List (Level × String)) (m : Module) : Module :=
  if m.opened then m
  else if m.configs.length = 0 then
    { m with
      configs := mapSet m.configs h.DEFAULT
        (normalizeConfig (orders h.DEFAULT) (defaultConfig h)) }
  else
    { m with configs := m.configs.map (fun p => (p.1, normalizeConfig (orders p.1) p.2)) }

/-! ## external.go -/

/-- `Info`, on the engine `m` for the package variable `module`. -/
def Info (m : Module) (sprintf : String → List Any → String) (sprint : Any → String)
    (now : Time) (args : List Any) : Module :=
  m.Logging sprintf sprint now LevelInfo args

/-- `Debug`, on the engine `m` for the package variable `module`. -/
def Debug (m : Module) (sprintf : String → List Any → String) (sprint : Any → String)
    (now : Time) (args : List Any) : Module :=
  m.Logging sprintf sprint now LevelDebug args

/-! ## The step model of the engine -/

/-- What can happen to a started engine: a caller runs `Write`, or the worker
takes one of the first two cases of its `select`. -/
inductive Event where
  | write (now : Time) (entry : Log)
  | recv
  | tick

def Module.step (m : Module) : Event → Module
  | .write now entry => m.Write now entry
  | .recv => m.recv
  | .tick => m.tick

def Module.run (m : Module) (events : List Event) : Module :=
  events.foldl Module.step m

/-- The entries of the `Write` calls of a trace, as `Write` stamps them, in
the order of the calls. -/
def written : List Event → List Log
  | [] => []
  | .write now entry :: rest => stamp now entry :: written rest
  | .recv :: rest => written rest
  | .tick :: rest => written rest

/-- Everything the connection of the instance `name` has been passed so far,
in the order it received it. -/
def Module.received (m : Module) (name : String) : List Log :=
  match mapGet m.instances name with
  | some inst => inst.connect.writes.flatten
  | none => []

/-- Whether the instance `name` allows `level`. -/
def Module.allows (m : Module) (name : String) (level : Level) : Bool :=
  match mapGet m.instances name with
  | some inst => inst.Allow level
  | none => false

/-- The entries the worker still holds: its batch, then the queue. -/
def Module.pending (m : Module) : List Log :=
  (match m.worker with
    | some w => w.batch
    | none => []) ++
  (match m.queue with
    | some q => q.buf
    | none => [])

/-- Whether `Write` would find room in the queue. -/
def Module.hasRoom (m : Module) : Bool :=
  match m.started, m.queue with
  | true, some q => q.buf.length < q.cap
  | _, _ => false

/-- Whether every `Write` of the trace finds room in the queue. -/
def Module.neverFull (m : Module) : List Event → Bool
  | [] => true
  | .write now entry :: rest => m.hasRoom && (m.Write now entry).neverFull rest
  | .recv :: rest => m.recv.neverFull rest
  | .tick :: rest => m.tick.neverFull rest

/-! ## Auxiliary definitions of the statements -/

/-- The threshold after `normalizeConfig`. -/
def clampLevel (level : Level) : Level :=
  if level < LevelFatal ∨ level > LevelDebug then LevelDebug else level

/-- What the connection of the instance `name` has received, followed by
what the worker still holds for it. -/
def Module.accounted (m : Module) (name : String) : List Log :=
  m.received name ++ m.pending.filter (fun entry => m.allows name entry.Level)

/-- The entries of the `Write` calls of a trace that find room in the queue,
as `Write` stamps them, in the order of the calls. -/
def Module.enqueued (m : Module) : List Event → List Log
  | [] => []
  | .write now entry :: rest =>
    (if m.hasRoom then [stamp now entry] else []) ++ (m.Write now entry).enqueued rest
  | .recv :: rest => m.recv.enqueued rest
  | .tick :: rest => m.tick.enqueued rest

/-- The entries of the `Write` calls of a trace that find no room in the queue
(or the engine not started) and are dispatched at once, in the order of the
calls. -/
def Module.direct (m : Module) : List Event → List Log
  | [] => []
  | .write now entry :: rest =>
    (if m.hasRoom then [] else [stamp now entry]) ++ (m.Write now entry).direct rest
  | .recv :: rest => m.recv.direct rest
  | .tick :: rest => m.tick.direct rest

/-- `Merge a b l`: the list `l` is an interleaving of `a` and `b`, each of
them in its own order. -/
inductive Merge {α : Type} : List α → List α → List α → Prop where
  | nil : Merge [] [] []
  | left (x : α) {a b l : List α} : Merge a b l → Merge (x :: a) b (x :: l)
  | right (x : α) {a b l : List α} : Merge a b l → Merge a (x :: b) (x :: l)

/-- The batch of the worker; empty when no worker runs. -/
def Module.batch (m : Module) : List Log :=
  match m.worker with
  | some w => w.batch
  | none => []

/-- The argument of the call of `dispatch` that `flush` makes in the state
`m`, if it makes one. -/
def Module.flushCall (m : Module) : Option (List Log) :=
  match m.worker with
  | some w => if w.batch.length = 0 then none else some w.batch
  | none => none

/-- The entry the receive case of the worker takes from the queue, when it is
enabled. -/
def Module.recvEntry (m : Module) : Option Log :=
  match m.worker, m.queue with
  | some _, some q => q.buf.head?
  | _, _ => none

/-- The entry the worker takes from the queue in a step. -/
def Module.takenBy (m : Module) : Event → Option Log
  | .write _ _ => none
  | .recv => m.recvEntry
  | .tick => none

/-- The argument of the call of `dispatch` the worker makes in a step, if it
makes one (the dispatch of a `Write` that finds no room is made by the
caller). -/
def Module.workerCall (m : Module) : Event → Option (List Log)
  | .write _ _ => none
  | .recv =>
    match m.recvEntry with
    | some entry =>
      if (m.batch ++ [entry]).length ≥ batchCap then some (m.batch ++ [entry]) else none
    | none => none
  | .tick => m.flushCall

/-- The batches the worker hands to `dispatch` along a trace, in order. -/
def Module.dispatched (m : Module) : List Event → List (List Log)
  | [] => []
  | ev :: rest => (m.workerCall ev).toList ++ (m.step ev).dispatched rest

/-- The entries the worker receives from the queue along a trace, in order. -/
def Module.taken (m : Module) : List Event → List Log
  | [] => []
  | ev :: rest => (m.takenBy ev).toList ++ (m.step ev).taken rest

/-- A started engine as `Start` leaves it and the steps keep it: the flag is
set, the stop channel exists and the worker runs. -/
def Module.live (m : Module) : Bool :=
  m.started && m.stopChan.isSome && m.worker.isSome

/-! ## Concrete values used to instantiate the theorems -/

/-- A connection on which nothing has been called and whose methods succeed. -/
def freshConnect : Connect :=
  { opens := 0, closes := 0, writes := [], openErr := none, closeErr := none,
    writeErr := fun _ => none }

/-- The config `Config{Level: level}`, every other field at its zero value. -/
def thresholdConfig (level : Level) : Config :=
  { Driver := "", Level := level, Levels := none, Json := false, Buffer := 0,
    Timeout := 0, Flag := "", Format := "", Setting := none }

/-- The instance `Open` builds for the config `cfg` under the name `name`,
with a fresh connection. -/
def freshInstance (name : String) (cfg : Config) : Instance :=
  { connect := freshConnect, Name := name, Config := cfg, Setting := cfg.Setting }

/-- A config whose explicit level map is what `parseLevels` builds from the
list `[99]`; every other field at its zero value. -/
def outOfRangeLevelsConfig : Config :=
  { Driver := "", Level := 0, Levels := some [(99, true)], Json := false, Buffer := 0,
    Timeout := 0, Flag := "", Format := "", Setting := none }

/-- The driver of default.go: `Connect` never fails, and the connection it
answers never fails either. -/
def defaultDriver : Driver :=
  { Connect := fun _ _ => .ok freshConnect }

/-- The package variable `module` as it is initialised: empty registries, both
flags false, no channel. -/
def emptyModule : Module :=
  { opened := false, started := false, configs := [], drivers := [], instances := [],
    queue := none, stopChan := none, doneChan := none, worker := none, stderr := [] }

/-- An engine with the default driver and the given configs registered. -/
def registered (configs : List (String × Config)) : Module :=
  { emptyModule with drivers := [("default", defaultDriver)], configs := configs }

/-- An opened engine with the one instance `default`, which allows every level. -/
def openedModule : Module :=
  (registered [("default", normalizeConfig levelStrings (thresholdConfig LevelDebug))]).Open.1

/-- Two entries with a time stamp. -/
def earlyEntry : Log := { Time := ⟨1700000000, 0⟩, Level := LevelInfo, Body := "early" }

def lateEntry : Log := { Time := ⟨1700000001, 0⟩, Level := LevelInfo, Body := "late" }

/-- A trace that fills the queue of 1024 entries, writes once more, and then
lets the worker receive one entry and tick. -/
def overtakingTrace : List Event :=
  List.replicate 1024 (Event.write ⟨1700000002, 0⟩ earlyEntry)
    ++ [Event.write ⟨1700000002, 0⟩ lateEntry, Event.recv, Event.tick]

/-- A trace in which both writes find room in the queue. -/
def roomyTrace : List Event :=
  [Event.write ⟨1700000002, 0⟩ earlyEntry, Event.write ⟨1700000002, 0⟩ lateEntry,
   Event.recv, Event.tick]

/-- An opened engine with the two instances `errors` (threshold ERROR) and
`all` (threshold DEBUG). -/
def fanOutModule : Module :=
  (registered
    [("errors", normalizeConfig levelStrings (thresholdConfig LevelError)),
     ("all", normalizeConfig levelStrings (thresholdConfig LevelDebug))]).Open.1

/-- The config of an instance in template mode with the template `format`. -/
def templateConfig (format : String) : Config :=
  { thresholdConfig LevelDebug with Format := format }

/-- An INFO entry whose body holds the text of a placeholder. -/
def tokenEntry : Log :=
  { Time := ⟨1700000000, 0⟩, Level := LevelInfo, Body := "x %level% y" }

/-- An instance in template mode with the given name, flag and template. -/
def namedInstance (name flag format : String) : Instance :=
  { connect := freshConnect, Name := name
    Config := { templateConfig format with Flag := flag }
    Setting := none }

/-- A host in which `strings.ToUpper` is upper-casing of the ASCII letters,
`strconv.Atoi` reads decimal digits, `time.ParseDuration` accepts nothing,
the default name is `default` and the override policy is inactive. -/
def asciiHost : Host :=
  { DEFAULT := "default", Override := false
    stringsToUpper := fun s => String.mk (s.data.map Char.toUpper)
    strconvAtoi := String.toInt?, timeParseDuration := fun _ => none }

/-- A driver other than the default one: its connection cannot be opened. -/
def brokenDriver : Driver :=
  { Connect := fun _ _ => .ok { freshConnect with openErr := some "unreachable" } }

/-- The configuration of the round-trip scenario, under the key `log`. -/
def roundTripGlobal : Map :=
  some [("log", .map [("driver", .str "default"), ("level", .str "INFO"),
    ("format", .str "%level%: %body%")])]

/-- The fragment of `fmt.Sprintf` for a format whose verbs are all `%s` and
arguments that are strings: every `%s` is replaced by the next argument. -/
def sprintfStrings : List Char → List Any → List Char
  | [], _ => []
  | '%' :: 's' :: rest, .str arg :: args => arg.data ++ sprintfStrings rest args
  | c :: rest, args => c :: sprintfStrings rest args

/-- That fragment of `fmt.Sprintf` on strings. -/
def sprintfOfStrings (format : String) (args : List Any) : String :=
  String.mk (sprintfStrings format.data args)

theorem mapGet_mapSet {κ ν : Type} [DecidableEq κ] (m : List (κ × ν)) (k key : κ) (v : ν) :
    mapGet (mapSet m k v) key = if k = key then some v else mapGet m key := by
  induction m with
  | nil => simp [mapSet, mapGet]
  | cons hd tl ih =>
    obtain ⟨a, b⟩ := hd
    by_cases h1 : a = k
    · subst h1
      by_cases h2 : a = key <;> simp [mapSet, mapGet, h2]
    · by_cases h2 : a = key
      · subst h2
        simp [mapSet, mapGet, h1, Ne.symm h1]
      · simp [mapSet, mapGet, h1, h2, ih]

theorem mapSet_ne_nil {κ ν : Type} [DecidableEq κ] (m : List (κ × ν)) (k : κ) (v : ν) :
    mapSet m k v ≠ [] := by
  cases m with
  | nil => simp [mapSet]
  | cons hd tl =>
    obtain ⟨a, b⟩ := hd
    by_cases h : a = k <;> simp [mapSet, h]

/-- The map `normalizeLevels` derives from the threshold `T`, started from `acc`. -/
theorem mapGet_derived (T : Level) (order : List (Level × String))
    (acc : List (Level × Bool)) (L : Level) :
    mapGet (order.foldl
      (fun acc entry => if entry.1 ≤ T then mapSet acc entry.1 true else acc) acc) L
      = if (∃ e ∈ order, e.1 = L) ∧ L ≤ T then some true else mapGet acc L := by
  induction order generalizing acc with
  | nil => simp
  | cons hd tl ih =>
    rw [List.foldl_cons, ih]
    by_cases h1 : (∃ e ∈ tl, e.1 = L) ∧ L ≤ T
    · have h2 : (∃ e ∈ hd :: tl, e.1 = L) ∧ L ≤ T := by
        obtain ⟨⟨e, he, hL⟩, hT⟩ := h1
        exact ⟨⟨e, List.mem_cons_of_mem _ he, hL⟩, hT⟩
      rw [if_pos h1, if_pos h2]
    · rw [if_neg h1]
      by_cases h3 : hd.1 ≤ T
      · rw [if_pos h3, mapGet_mapSet]
        by_cases h4 : hd.1 = L
        · have h2 : (∃ e ∈ hd :: tl, e.1 = L) ∧ L ≤ T :=
            ⟨⟨hd, List.mem_cons_self _ _, h4⟩, h4 ▸ h3⟩
          rw [if_pos h4, if_pos h2]
        · have h2 : ¬ ((∃ e ∈ hd :: tl, e.1 = L) ∧ L ≤ T) := by
            rintro ⟨⟨e, he, hL⟩, hT⟩
            rcases List.mem_cons.1 he with rfl | he
            · exact h4 hL
            · exact h1 ⟨⟨e, he, hL⟩, hT⟩
          rw [if_neg h4, if_neg h2]
      · have h2 : ¬ ((∃ e ∈ hd :: tl, e.1 = L) ∧ L ≤ T) := by
          rintro ⟨⟨e, he, hL⟩, hT⟩
          rcases List.mem_cons.1 he with rfl | he
          · exact h3 (hL ▸ hT)
          · exact h1 ⟨⟨e, he, hL⟩, hT⟩
        rw [if_neg h3, if_neg h2]

theorem int_zero_to_seven (n : Int) (h0 : 0 ≤ n) (h7 : n ≤ 7) :
    n = 0 ∨ n = 1 ∨ n = 2 ∨ n = 3 ∨ n = 4 ∨ n = 5 ∨ n = 6 ∨ n = 7 := by
  omega

/-- The keys of `levelStrings` are the eight levels. -/
theorem mem_levelStrings_key (L : Level) :
    (∃ e ∈ levelStrings, e.1 = L) ↔ (LevelFatal ≤ L ∧ L ≤ LevelDebug) := by
  simp only [levelStrings, LevelFatal, LevelPanic, LevelError, LevelWarning, LevelNotice,
    LevelInfo, LevelTrace, LevelDebug]
  constructor
  · rintro ⟨e, he, rfl⟩
    simp only [List.mem_cons, List.mem_singleton, List.not_mem_nil, or_false] at he
    rcases he with rfl | rfl | rfl | rfl | rfl | rfl | rfl | rfl <;> decide
  · rintro ⟨h0, h7⟩
    have := int_zero_to_seven L h0 h7
    rcases this with rfl | rfl | rfl | rfl | rfl | rfl | rfl | rfl <;> simp

theorem mem_order_key (order : List (Level × String)) (horder : order.Perm levelStrings)
    (L : Level) : (∃ e ∈ order, e.1 = L) ↔ (LevelFatal ≤ L ∧ L ≤ LevelDebug) := by
  rw [← mem_levelStrings_key]
  constructor
  · rintro ⟨e, he, hL⟩
    exact ⟨e, horder.mem_iff.1 he, hL⟩
  · rintro ⟨e, he, hL⟩
    exact ⟨e, horder.mem_iff.2 he, hL⟩

/-! ## Lemmas on normalisation -/

theorem mapLen_eq_zero (m : Option (List (Level × Bool))) :
    mapLen m = 0 ↔ (m = none ∨ m = some []) := by
  cases m with
  | none => simp [mapLen]
  | some l => cases l <;> simp [mapLen]

theorem normalizeLevels_Driver (order : List (Level × String)) (cfg : Config) :
    (normalizeLevels order cfg).Driver = cfg.Driver := by
  unfold normalizeLevels
  split_ifs <;> rfl

theorem normalizeLevels_Format (order : List (Level × String)) (cfg : Config) :
    (normalizeLevels order cfg).Format = cfg.Format := by
  unfold normalizeLevels
  split_ifs <;> rfl

theorem normalizeLevels_Buffer (order : List (Level × String)) (cfg : Config) :
    (normalizeLevels order cfg).Buffer = cfg.Buffer := by
  unfold normalizeLevels
  split_ifs <;> rfl

theorem normalizeLevels_Timeout (order : List (Level × String)) (cfg : Config) :
    (normalizeLevels order cfg).Timeout = cfg.Timeout := by
  unfold normalizeLevels
  split_ifs <;> rfl

theorem normalizeLevels_Level (order : List (Level × String)) (cfg : Config) :
    (normalizeLevels order cfg).Level = cfg.Level := by
  unfold normalizeLevels
  split_ifs <;> rfl

theorem normalizeConfig_Level (order : List (Level × String)) (cfg : Config) :
    (normalizeConfig order cfg).Level = clampLevel cfg.Level := by
  unfold normalizeConfig clampLevel
  rw [normalizeLevels_Level]

theorem normalizeConfig_Levels_derived (order : List (Level × String)) (cfg : Config)
    (h : mapLen cfg.Levels = 0) :
    (normalizeConfig order cfg).Levels = some (order.foldl
      (fun acc entry =>
        if entry.1 ≤ clampLevel cfg.Level then mapSet acc entry.1 true else acc) []) := by
  rcases (mapLen_eq_zero _).1 h with h | h <;>
  · unfold normalizeConfig normalizeLevels clampLevel
    simp [h, mapLen]

theorem normalizeConfig_Levels_explicit (order : List (Level × String)) (cfg : Config)
    (h : 0 < mapLen cfg.Levels) :
    (normalizeConfig order cfg).Levels = cfg.Levels := by
  have hne : cfg.Levels ≠ none := by
    intro h0
    rw [h0] at h
    simp [mapLen] at h
  unfold normalizeConfig normalizeLevels
  simp [hne, h]

/-! ## C1 -/

/-- C1: for a config with no explicit level list (Levels nil or empty) and a
threshold T among the eight levels, an instance holding the normalised config
allows exactly the levels L with Fatal ≤ L ≤ T, whatever the order in which
the level table is ranged over; so for levels L1 ≤ L2 the threshold L2 allows
both L1 and L2, and nothing above the threshold or outside the eight levels. -/
theorem normalizeConfig_allow_iff_le_threshold
    (order : List (Level × String)) (horder : order.Perm levelStrings)
    (cfg : Config) (hlevels : cfg.Levels = none ∨ cfg.Levels = some [])
    (hT : LevelFatal ≤ cfg.Level ∧ cfg.Level ≤ LevelDebug)
    (inst : Instance) (hinst : inst.Config = normalizeConfig order cfg) :
    (∀ L : Level, inst.Allow L = true ↔ (LevelFatal ≤ L ∧ L ≤ cfg.Level)) ∧
    (∀ L1 L2 : Level, LevelFatal ≤ L1 → L1 ≤ L2 → L2 = cfg.Level →
      inst.Allow L1 = true ∧ inst.Allow L2 = true) ∧
    (∀ L : Level, (cfg.Level < L ∨ L < LevelFatal ∨ LevelDebug < L) →
      inst.Allow L = false) := by
  have hclamp : clampLevel cfg.Level = cfg.Level := by
    unfold clampLevel
    rw [if_neg]
    rintro (h | h)
    · exact absurd hT.1 (not_le.2 h)
    · exact absurd hT.2 (not_le.2 h)
  have hiff : ∀ L : Level, inst.Allow L = true ↔ (LevelFatal ≤ L ∧ L ≤ cfg.Level) := by
    intro L
    unfold Instance.Allow
    rw [hinst, normalizeConfig_Levels_derived order cfg ((mapLen_eq_zero _).2 hlevels), hclamp]
    simp only [mapGet_derived, mem_order_key order horder, mapGet]
    constructor
    · intro h
      by_cases hc : (LevelFatal ≤ L ∧ L ≤ LevelDebug) ∧ L ≤ cfg.Level
      · exact ⟨hc.1.1, hc.2⟩
      · rw [if_neg hc] at h
        simp at h
    · rintro ⟨h0, hLT⟩
      rw [if_pos ⟨⟨h0, le_trans hLT hT.2⟩, hLT⟩]
      rfl
  refine ⟨hiff, ?_, ?_⟩
  · intro L1 L2 h0 h12 h2
    subst h2
    exact ⟨(hiff L1).2 ⟨h0, h12⟩, (hiff _).2 ⟨le_trans h0 h12, le_refl _⟩⟩
  · intro L hL
    cases hA : inst.Allow L with
    | false => rfl
    | true =>
      obtain ⟨h0, hLT⟩ := (hiff L).1 hA
      rcases hL with h | h | h
      · exact absurd hLT (not_le.2 h)
      · exact absurd h0 (not_le.2 h)
      · exact absurd (le_trans hLT hT.2) (not_le.2 h)

/-- Witness of C1: threshold INFO, the level table ranged over in the order of
its literal. -/
theorem normalizeConfig_allow_iff_le_threshold_witness :
    (freshInstance "default" (normalizeConfig levelStrings (thresholdConfig LevelInfo))).Allow
        LevelError = true ∧
    (freshInstance "default" (normalizeConfig levelStrings (thresholdConfig LevelInfo))).Allow
        LevelInfo = true ∧
    (freshInstance "default" (normalizeConfig levelStrings (thresholdConfig LevelInfo))).Allow
        LevelDebug = false :=
  have h := normalizeConfig_allow_iff_le_threshold levelStrings (List.Perm.refl _)
    (thresholdConfig LevelInfo) (Or.inl rfl) ⟨by decide, by decide⟩
    (freshInstance "default" (normalizeConfig levelStrings (thresholdConfig LevelInfo))) rfl
  ⟨(h.2.1 LevelError LevelInfo (by decide) (by decide) rfl).1,
   (h.2.1 LevelError LevelInfo (by decide) (by decide) rfl).2,
   h.2.2 LevelDebug (Or.inl (by decide))⟩

/-! ## C7 -/

theorem clampLevel_range (level : Level) :
    LevelFatal ≤ clampLevel level ∧ clampLevel level ≤ LevelDebug := by
  unfold clampLevel
  split_ifs with h
  · exact ⟨by decide, le_refl _⟩
  · exact ⟨not_lt.1 (fun h1 => h (Or.inl h1)), not_lt.1 (fun h1 => h (Or.inr h1))⟩

/-- The derived level map has the entry of Fatal, so it is not empty. -/
theorem derived_length_pos (order : List (Level × String)) (horder : order.Perm levelStrings)
    (T : Level) (hT : LevelFatal ≤ T) :
    0 < (order.foldl
      (fun acc entry => if entry.1 ≤ T then mapSet acc entry.1 true else acc)
      ([] : List (Level × Bool))).length := by
  have h := mapGet_derived T order [] LevelFatal
  rw [if_pos ⟨(mem_order_key order horder LevelFatal).2 ⟨le_refl _, by decide⟩, hT⟩] at h
  cases hm : order.foldl
      (fun acc entry => if entry.1 ≤ T then mapSet acc entry.1 true else acc)
      ([] : List (Level × Bool)) with
  | nil =>
    rw [hm] at h
    simp [mapGet] at h
  | cons a l => simp

theorem normalizeConfig_Levels_length_pos (order : List (Level × String))
    (horder : order.Perm levelStrings) (cfg : Config) :
    0 < mapLen (normalizeConfig order cfg).Levels := by
  by_cases h : mapLen cfg.Levels = 0
  · rw [normalizeConfig_Levels_derived order cfg h]
    exact derived_length_pos order horder _ (clampLevel_range _).1
  · rw [normalizeConfig_Levels_explicit order cfg (Nat.pos_of_ne_zero h)]
    exact Nat.pos_of_ne_zero h

/-- A config that already has every default is left as it is. -/
theorem normalizeConfig_fixed (order : List (Level × String)) (c : Config)
    (hD : c.Driver ≠ "") (hLs : 0 < mapLen c.Levels)
    (hL : LevelFatal ≤ c.Level ∧ c.Level ≤ LevelDebug) (hF : c.Format ≠ "")
    (hB : 0 < c.Buffer) (hT : 0 < c.Timeout) : normalizeConfig order c = c := by
  have hne : c.Levels ≠ none := by
    intro h0
    rw [h0] at hLs
    simp [mapLen] at hLs
  have hL1 : ¬ (c.Level < LevelFatal ∨ c.Level > LevelDebug) := by
    rintro (h | h)
    · exact absurd hL.1 (not_le.2 h)
    · exact absurd hL.2 (not_le.2 h)
  unfold normalizeConfig normalizeLevels
  simp [hD, hne, hLs, hL1, hF, not_le.2 hB, not_le.2 hT]

theorem normalizeConfig_Driver (order : List (Level × String)) (cfg : Config) :
    (normalizeConfig order cfg).Driver = if cfg.Driver = "" then "default" else cfg.Driver := by
  unfold normalizeConfig
  rw [normalizeLevels_Driver]

theorem normalizeConfig_Format (order : List (Level × String)) (cfg : Config) :
    (normalizeConfig order cfg).Format
      = if cfg.Format = "" then "%time% [%level%] %body%" else cfg.Format := by
  unfold normalizeConfig
  rw [normalizeLevels_Format]

theorem normalizeConfig_Buffer (order : List (Level × String)) (cfg : Config) :
    (normalizeConfig order cfg).Buffer = if cfg.Buffer ≤ 0 then 1024 else cfg.Buffer := by
  unfold normalizeConfig
  rw [normalizeLevels_Buffer]

theorem normalizeConfig_Timeout (order : List (Level × String)) (cfg : Config) :
    (normalizeConfig order cfg).Timeout
      = if cfg.Timeout ≤ 0 then 200 * 1000000 else cfg.Timeout := by
  unfold normalizeConfig
  rw [normalizeLevels_Timeout]

/-- C7: normalising a normalised config changes nothing: for every config and
every two orders in which the level table may be ranged over,
normalizeConfig (normalizeConfig c) is the very record normalizeConfig c
(every field equal, the level maps identical and hence equal as sets). -/
theorem normalizeConfig_idempotent
    (order1 order2 : List (Level × String)) (horder : order1.Perm levelStrings)
    (cfg : Config) :
    normalizeConfig order2 (normalizeConfig order1 cfg) = normalizeConfig order1 cfg := by
  apply normalizeConfig_fixed
  · rw [normalizeConfig_Driver]
    split_ifs with h
    · decide
    · exact h
  · exact normalizeConfig_Levels_length_pos order1 horder cfg
  · rw [normalizeConfig_Level]
    exact clampLevel_range _
  · rw [normalizeConfig_Format]
    split_ifs with h
    · decide
    · exact h
  · rw [normalizeConfig_Buffer]
    split_ifs with h
    · decide
    · exact not_le.1 h
  · rw [normalizeConfig_Timeout]
    split_ifs with h
    · decide
    · exact not_le.1 h

/-- Witness of C7: the zero config, the level table ranged over in the order
of its literal the first time and in the reverse order the second time. -/
theorem normalizeConfig_idempotent_witness :
    normalizeConfig levelStrings.reverse (normalizeConfig levelStrings (thresholdConfig 0))
      = normalizeConfig levelStrings (thresholdConfig 0) :=
  normalizeConfig_idempotent levelStrings levelStrings.reverse (List.Perm.refl _)
    (thresholdConfig 0)

/-! ## C8 -/

/-- Refutation of C8 as stated: the list `[99]` parses to the explicit map
with the single key 99, normalizeConfig keeps an explicit map as it is, and the instance
then allows none of the eight levels. -/
theorem normalizeConfig_explicit_allows_none :
    parseLevels String.toUpper levelStrings (.list [.int 99])
        = (outOfRangeLevelsConfig.Levels, true) ∧
    ¬ ∃ L : Level, LevelFatal ≤ L ∧ L ≤ LevelDebug ∧
        (freshInstance "default" (normalizeConfig levelStrings outOfRangeLevelsConfig)).Allow L
          = true := by
  refine ⟨rfl, ?_⟩
  rintro ⟨L, -, h7, hA⟩
  have hLs : (normalizeConfig levelStrings outOfRangeLevelsConfig).Levels
      = some [(99, true)] :=
    normalizeConfig_Levels_explicit levelStrings outOfRangeLevelsConfig (by decide)
  unfold Instance.Allow freshInstance at hA
  simp only [hLs, mapGet] at hA
  split_ifs at hA with h99
  · rw [← h99] at h7
    exact absurd h7 (by decide)
  · simp at hA

/-- C8 (amended): after normalizeConfig the level map is never empty, and the instance
allows at least one of the eight levels exactly when the incoming
config has no explicit level entries (map nil or empty, so the set is derived
from the threshold) or its explicit map holds `true` for one of the eight
levels; an explicit map is kept as given. -/
theorem normalizeConfig_allows_some_iff
    (order : List (Level × String)) (horder : order.Perm levelStrings)
    (cfg : Config) (inst : Instance) (hinst : inst.Config = normalizeConfig order cfg) :
    0 < mapLen inst.Config.Levels ∧
    ((∃ L : Level, LevelFatal ≤ L ∧ L ≤ LevelDebug ∧ inst.Allow L = true) ↔
      (mapLen cfg.Levels = 0 ∨
        ∃ m, cfg.Levels = some m ∧
          ∃ L : Level, LevelFatal ≤ L ∧ L ≤ LevelDebug ∧ mapGet m L = some true)) := by
  refine ⟨hinst ▸ normalizeConfig_Levels_length_pos order horder cfg, ?_⟩
  by_cases h0 : mapLen cfg.Levels = 0
  · simp only [h0, true_or, iff_true]
    refine ⟨LevelFatal, le_refl _, by decide, ?_⟩
    unfold Instance.Allow
    rw [hinst, normalizeConfig_Levels_derived order cfg h0]
    simp only [mapGet_derived]
    rw [if_pos ⟨(mem_order_key order horder LevelFatal).2 ⟨le_refl _, by decide⟩,
      (clampLevel_range _).1⟩]
    rfl
  · have hex := normalizeConfig_Levels_explicit order cfg (Nat.pos_of_ne_zero h0)
    simp only [h0, false_or]
    cases hm : cfg.Levels with
    | none => simp [hm, mapLen] at h0
    | some m =>
      constructor
      · rintro ⟨L, hL0, hL7, hA⟩
        refine ⟨m, rfl, L, hL0, hL7, ?_⟩
        unfold Instance.Allow at hA
        rw [hinst, hex, hm] at hA
        dsimp only at hA
        cases hg : mapGet m L with
        | none => simp [hg] at hA
        | some b =>
          rw [hg] at hA
          simp only [Option.getD_some] at hA
          rw [hA]
      · rintro ⟨m1, hm1, L, hL0, hL7, hg⟩
        obtain rfl : m1 = m := (Option.some.inj hm1).symm
        refine ⟨L, hL0, hL7, ?_⟩
        unfold Instance.Allow
        rw [hinst, hex, hm]
        dsimp only
        rw [hg]
        rfl

/-- Witness of C8 (amended): the zero config, which has no explicit map. -/
theorem normalizeConfig_allows_some_iff_witness :
    0 < mapLen (freshInstance "default"
      (normalizeConfig levelStrings (thresholdConfig 0))).Config.Levels ∧
    ((∃ L : Level, LevelFatal ≤ L ∧ L ≤ LevelDebug ∧
        (freshInstance "default"
          (normalizeConfig levelStrings (thresholdConfig 0))).Allow L = true) ↔
      (mapLen (thresholdConfig 0).Levels = 0 ∨
        ∃ m, (thresholdConfig 0).Levels = some m ∧
          ∃ L : Level, LevelFatal ≤ L ∧ L ≤ LevelDebug ∧ mapGet m L = some true)) :=
  normalizeConfig_allows_some_iff levelStrings (List.Perm.refl _) (thresholdConfig 0)
    (freshInstance "default" (normalizeConfig levelStrings (thresholdConfig 0))) rfl

/-! ## Lemmas on dispatch -/

theorem mapGet_map_snd {κ ν : Type} [DecidableEq κ] (f : ν → ν) (l : List (κ × ν)) (key : κ) :
    mapGet (l.map (fun p => (p.1, f p.2))) key = (mapGet l key).map f := by
  induction l with
  | nil => rfl
  | cons hd tl ih =>
    obtain ⟨a, b⟩ := hd
    by_cases h : a = key <;> simp [mapGet, h, ih]

/-- What `dispatch` does to one instance: nothing but one more recorded call
on its connection, unless the filtered batch is empty. -/
theorem dispatchTo_fst (entries : List Log) (inst : Instance) :
    (dispatchTo entries inst).1 =
      { inst with connect := { inst.connect with
          writes := inst.connect.writes ++
            (if entries.filter (fun entry => inst.Allow entry.Level) = [] then []
             else [entries.filter (fun entry => inst.Allow entry.Level)]) } } := by
  unfold dispatchTo
  by_cases h : entries.filter (fun entry => inst.Allow entry.Level) = []
  · simp [h]
  · have hlen : (entries.filter (fun entry => inst.Allow entry.Level)).length ≠ 0 := by
      simpa using h
    simp only [hlen, if_false, h, Connect.Write]
    cases inst.connect.writeErr (entries.filter (fun entry => inst.Allow entry.Level)) <;> rfl

theorem dispatchTo_Allow (entries : List Log) (inst : Instance) (level : Level) :
    (dispatchTo entries inst).1.Allow level = inst.Allow level := by
  rw [dispatchTo_fst]
  rfl

theorem dispatchTo_flatten (entries : List Log) (inst : Instance) :
    (dispatchTo entries inst).1.connect.writes.flatten
      = inst.connect.writes.flatten
        ++ entries.filter (fun entry => inst.Allow entry.Level) := by
  rw [dispatchTo_fst]
  by_cases h : entries.filter (fun entry => inst.Allow entry.Level) = []
  · simp [h]
  · simp [h]

theorem dispatch_instances (m : Module) (entries : List Log) :
    (m.dispatch entries).instances
      = m.instances.map (fun p => (p.1, (dispatchTo entries p.2).1)) := rfl

theorem received_dispatch (m : Module) (entries : List Log) (name : String) :
    (m.dispatch entries).received name
      = m.received name ++ entries.filter (fun entry => m.allows name entry.Level) := by
  unfold Module.received Module.allows
  rw [dispatch_instances, mapGet_map_snd (fun inst => (dispatchTo entries inst).1)]
  cases mapGet m.instances name with
  | none => simp
  | some inst => simp [dispatchTo_flatten]

theorem allows_dispatch (m : Module) (entries : List Log) (name : String) (level : Level) :
    (m.dispatch entries).allows name level = m.allows name level := by
  unfold Module.allows
  rw [dispatch_instances, mapGet_map_snd (fun inst => (dispatchTo entries inst).1)]
  cases mapGet m.instances name with
  | none => rfl
  | some inst => simp [dispatchTo_Allow]

/-! ## Lemmas on the steps of the engine -/

theorem received_of_instances (m1 m2 : Module) (h : m1.instances = m2.instances)
    (name : String) : m1.received name = m2.received name := by
  unfold Module.received
  rw [h]

theorem allows_of_instances (m1 m2 : Module) (h : m1.instances = m2.instances)
    (name : String) (level : Level) : m1.allows name level = m2.allows name level := by
  unfold Module.allows
  rw [h]

theorem flush_cases (m : Module) :
    m.flush = m ∨
      ∃ w, m.worker = some w ∧ w.batch ≠ [] ∧
        m.flush = { m.dispatch w.batch with worker := some { w with batch := [] } } := by
  unfold Module.flush
  cases hw : m.worker with
  | none => exact Or.inl rfl
  | some w =>
    by_cases hb : w.batch.length = 0
    · simp [hb]
    · right
      refine ⟨w, rfl, ?_, ?_⟩
      · intro h
        exact hb (by simp [h])
      · simp [hb]

theorem allows_flush (m : Module) (name : String) (level : Level) :
    m.flush.allows name level = m.allows name level := by
  rcases flush_cases m with h | ⟨w, -, -, h⟩
  · rw [h]
  · rw [allows_of_instances m.flush (m.dispatch w.batch) (by rw [h]) name level,
      allows_dispatch]

theorem flush_started (m : Module) : m.flush.started = m.started := by
  unfold Module.flush
  cases m.worker with
  | none => rfl
  | some w =>
    dsimp only
    split_ifs <;> rfl

theorem flush_stopChan (m : Module) : m.flush.stopChan = m.stopChan := by
  unfold Module.flush
  cases m.worker with
  | none => rfl
  | some w =>
    dsimp only
    split_ifs <;> rfl

theorem flush_queue (m : Module) : m.flush.queue = m.queue := by
  unfold Module.flush
  cases m.worker with
  | none => rfl
  | some w =>
    dsimp only
    split_ifs <;> rfl

theorem flush_worker (m : Module) :
    m.flush.worker = m.worker.map (fun w => { w with batch := [] }) := by
  unfold Module.flush
  cases hw : m.worker with
  | none => simp [hw]
  | some w =>
    by_cases hb : w.batch.length = 0
    · have : w.batch = [] := by simpa using hb
      simp [hb, hw, ← this]
    · simp [hb]

theorem accounted_flush (m : Module) (name : String) :
    m.flush.accounted name = m.accounted name := by
  rcases flush_cases m with h | ⟨w, hw, -, h⟩
  · rw [h]
  · unfold Module.accounted
    have hallow : (fun entry : Log => m.flush.allows name entry.Level)
        = (fun entry : Log => m.allows name entry.Level) := by
      funext entry
      exact allows_flush m name entry.Level
    rw [hallow, received_of_instances m.flush (m.dispatch w.batch) (by rw [h]),
      received_dispatch]
    have hp : m.flush.pending = (match m.queue with
        | some q => q.buf
        | none => []) := by
      rw [h]
      rfl
    rw [hp]
    unfold Module.pending
    rw [hw]
    simp [List.filter_append]

/-- The engine after the worker has taken `entry` from the queue, before the
test of the batch length. -/
theorem recv_cases (m : Module) :
    m.recv = m ∨
      ∃ w q entry rest, m.worker = some w ∧ m.queue = some q ∧ q.buf = entry :: rest ∧
        ∃ m1 : Module, m1.instances = m.instances ∧ m1.started = m.started ∧
          m1.stopChan = m.stopChan ∧
          m1.queue = some { q with buf := rest } ∧
          m1.worker = some { w with batch := w.batch ++ [entry] } ∧
          (m.recv = m1 ∨ m.recv = m1.flush) := by
  cases hw : m.worker with
  | none =>
    left
    simp only [Module.recv, hw]
  | some w =>
    cases hq : m.queue with
    | none =>
      left
      simp only [Module.recv, hw, hq]
    | some q =>
      cases hb : q.buf with
      | nil =>
        left
        simp only [Module.recv, hw, hq, hb]
      | cons entry rest =>
        right
        refine ⟨w, q, entry, rest, rfl, rfl, hb,
          { m with queue := some { q with buf := rest }
                   worker := some { w with batch := w.batch ++ [entry] } },
          rfl, rfl, rfl, rfl, rfl, ?_⟩
        simp only [Module.recv, hw, hq, hb]
        split_ifs
        · exact Or.inr rfl
        · exact Or.inl rfl

theorem accounted_recv (m : Module) (name : String) :
    m.recv.accounted name = m.accounted name := by
  rcases recv_cases m with h | ⟨w, q, entry, rest, hw, hq, hb, m1, hi, -, -, hq1, hw1, h⟩
  · rw [h]
  · have h1 : m1.accounted name = m.accounted name := by
      unfold Module.accounted
      have hallow : (fun entry : Log => m1.allows name entry.Level)
          = (fun entry : Log => m.allows name entry.Level) := by
        funext e
        exact allows_of_instances m1 m hi name e.Level
      rw [hallow, received_of_instances m1 m hi]
      unfold Module.pending
      rw [hq1, hw1, hw, hq]
      simp [hb]
    rcases h with h | h
    · rw [h, h1]
    · rw [h, accounted_flush, h1]

theorem allows_recv (m : Module) (name : String) (level : Level) :
    m.recv.allows name level = m.allows name level := by
  rcases recv_cases m with h | ⟨w, q, entry, rest, -, -, -, m1, hi, -, -, -, -, h⟩
  · rw [h]
  · rcases h with h | h
    · rw [h, allows_of_instances m1 m hi]
    · rw [h, allows_flush, allows_of_instances m1 m hi]

theorem live_iff (m : Module) :
    m.live = true ↔ (m.started = true ∧ m.stopChan.isSome = true ∧ m.worker.isSome = true) := by
  unfold Module.live
  simp only [Bool.and_eq_true, and_assoc]

theorem live_flush (m : Module) (h : m.live = true) : m.flush.live = true := by
  obtain ⟨h1, h2, h3⟩ := (live_iff m).1 h
  refine (live_iff _).2 ⟨by rw [flush_started, h1], by rw [flush_stopChan, h2], ?_⟩
  rw [flush_worker]
  cases hw : m.worker with
  | none => simp [hw] at h3
  | some w => rfl

theorem live_recv (m : Module) (h : m.live = true) : m.recv.live = true := by
  rcases recv_cases m with h0 | ⟨w, q, entry, rest, -, -, -, m1, -, hs, hc, -, hw1, h0⟩
  · rw [h0]
    exact h
  · obtain ⟨hl1, hl2, -⟩ := (live_iff m).1 h
    have h1 : m1.live = true :=
      (live_iff m1).2 ⟨by rw [hs, hl1], by rw [hc, hl2], by rw [hw1]; rfl⟩
    rcases h0 with h0 | h0
    · rw [h0]
      exact h1
    · rw [h0]
      exact live_flush m1 h1

/-- The two outcomes of `Write`: the stamped entry is appended to the queue,
or it is dispatched alone. -/
theorem Write_cases (m : Module) (now : Time) (entry : Log) :
    (m.hasRoom = true ∧ ∃ q, m.queue = some q ∧
      m.Write now entry = { m with queue := some { q with buf := q.buf ++ [stamp now entry] } })
    ∨ (m.hasRoom = false ∧ m.Write now entry = m.dispatch [stamp now entry]) := by
  unfold Module.Write Module.hasRoom
  cases hs : m.started with
  | false => exact Or.inr ⟨rfl, rfl⟩
  | true =>
    cases hq : m.queue with
    | none => exact Or.inr ⟨rfl, rfl⟩
    | some q =>
      by_cases hroom : q.buf.length < q.cap
      · left
        simp [hroom]
      · right
        simp [hroom]

theorem allows_Write (m : Module) (now : Time) (entry : Log) (name : String) (level : Level) :
    (m.Write now entry).allows name level = m.allows name level := by
  rcases Write_cases m now entry with ⟨-, q, -, h⟩ | ⟨-, h⟩
  · rw [h]
    rfl
  · rw [h, allows_dispatch]

theorem live_Write (m : Module) (now : Time) (entry : Log) (h : m.live = true) :
    (m.Write now entry).live = true := by
  rcases Write_cases m now entry with ⟨-, q, -, h0⟩ | ⟨-, h0⟩
  · rw [h0]
    exact h
  · rw [h0]
    exact h

theorem accounted_Write_room (m : Module) (now : Time) (entry : Log) (name : String)
    (hroom : m.hasRoom = true) :
    (m.Write now entry).accounted name
      = m.accounted name ++ [stamp now entry].filter (fun e => m.allows name e.Level) := by
  rcases Write_cases m now entry with ⟨-, q, hq, h⟩ | ⟨h0, -⟩
  · rw [h]
    unfold Module.accounted Module.pending
    rw [hq]
    have hr : ∀ x : Module, x.instances = m.instances → x.received name = m.received name :=
      fun x hx => received_of_instances x m hx name
    have ha : ∀ x : Module, x.instances = m.instances →
        (fun e : Log => x.allows name e.Level) = (fun e : Log => m.allows name e.Level) :=
      fun x hx => funext (fun e => allows_of_instances x m hx name e.Level)
    rw [hr { m with queue := some { q with buf := q.buf ++ [stamp now entry] } } rfl,
      ha { m with queue := some { q with buf := q.buf ++ [stamp now entry] } } rfl]
    simp [List.filter_append]
  · rw [hroom] at h0
    exact absurd h0 (by decide)

theorem accounted_Write_perm (m : Module) (now : Time) (entry : Log) (name : String) :
    ((m.Write now entry).accounted name).Perm
      (m.accounted name ++ [stamp now entry].filter (fun e => m.allows name e.Level)) := by
  rcases Write_cases m now entry with ⟨hroom, -, -, -⟩ | ⟨-, h⟩
  · rw [accounted_Write_room m now entry name hroom]
  · rw [h]
    unfold Module.accounted
    have ha : (fun e : Log => (m.dispatch [stamp now entry]).allows name e.Level)
        = (fun e : Log => m.allows name e.Level) :=
      funext (fun e => allows_dispatch m [stamp now entry] name e.Level)
    rw [ha, received_dispatch]
    have hp : (m.dispatch [stamp now entry]).pending = m.pending := rfl
    rw [hp, List.append_assoc, List.append_assoc]
    exact List.Perm.append_left _ List.perm_append_comm

theorem allows_step (m : Module) (ev : Event) (name : String) (level : Level) :
    (m.step ev).allows name level = m.allows name level := by
  cases ev with
  | write now entry => exact allows_Write m now entry name level
  | recv => exact allows_recv m name level
  | tick => exact allows_flush m name level

theorem allows_run (m : Module) (events : List Event) (name : String) (level : Level) :
    (m.run events).allows name level = m.allows name level := by
  induction events generalizing m with
  | nil => rfl
  | cons ev rest ih =>
    show ((m.step ev).run rest).allows name level = m.allows name level
    rw [ih, allows_step]

theorem live_step (m : Module) (ev : Event) (h : m.live = true) :
    (m.step ev).live = true := by
  cases ev with
  | write now entry => exact live_Write m now entry h
  | recv => exact live_recv m h
  | tick => exact live_flush m h

theorem live_run (m : Module) (events : List Event) (h : m.live = true) :
    (m.run events).live = true := by
  induction events generalizing m with
  | nil => exact h
  | cons ev rest ih => exact ih (m.step ev) (live_step m ev h)

theorem allows_fun_step (m : Module) (ev : Event) (name : String) :
    (fun e : Log => (m.step ev).allows name e.Level) = (fun e : Log => m.allows name e.Level) :=
  funext (fun e => allows_step m ev name e.Level)

/-- Nothing is lost or duplicated: along every trace, what an instance has
received and is still to receive grows by the allowed written entries, up to
the order. -/
theorem accounted_run_perm (m : Module) (events : List Event) (name : String) :
    ((m.run events).accounted name).Perm
      (m.accounted name ++ (written events).filter (fun e => m.allows name e.Level)) := by
  induction events generalizing m with
  | nil => simp [Module.run, written]
  | cons ev rest ih =>
    have h := ih (m.step ev)
    rw [allows_fun_step] at h
    show (((m.step ev).run rest).accounted name).Perm _
    refine h.trans ?_
    cases ev with
    | write now entry =>
      have h1 := accounted_Write_perm m now entry name
      simp only [written, Module.step]
      rw [show stamp now entry :: written rest = [stamp now entry] ++ written rest from rfl,
        List.filter_append, ← List.append_assoc]
      exact List.Perm.append_right _ h1
    | recv =>
      simp only [written, Module.step]
      rw [accounted_recv]
    | tick =>
      simp only [written, Module.step, Module.tick]
      rw [accounted_flush]

/-- When every `Write` finds room, the order is kept as well. -/
theorem accounted_run_exact (m : Module) (events : List Event) (name : String)
    (hroom : m.neverFull events = true) :
    (m.run events).accounted name
      = m.accounted name ++ (written events).filter (fun e => m.allows name e.Level) := by
  induction events generalizing m with
  | nil => simp [Module.run, written]
  | cons ev rest ih =>
    cases ev with
    | write now entry =>
      simp only [Module.neverFull, Bool.and_eq_true] at hroom
      have h := ih (m.Write now entry) hroom.2
      rw [show (fun e : Log => (m.Write now entry).allows name e.Level)
          = (fun e : Log => m.allows name e.Level) from
        funext (fun e => allows_Write m now entry name e.Level)] at h
      show ((m.Write now entry).run rest).accounted name = _
      rw [h, accounted_Write_room m now entry name hroom.1]
      simp only [written]
      rw [show stamp now entry :: written rest = [stamp now entry] ++ written rest from rfl,
        List.filter_append, List.append_assoc]
    | recv =>
      simp only [Module.neverFull] at hroom
      have h := ih m.recv hroom
      rw [show (fun e : Log => m.recv.allows name e.Level)
          = (fun e : Log => m.allows name e.Level) from
        funext (fun e => allows_recv m name e.Level)] at h
      show (m.recv.run rest).accounted name = _
      rw [h, accounted_recv]
      rfl
    | tick =>
      simp only [Module.neverFull] at hroom
      have h := ih m.tick hroom
      rw [show (fun e : Log => m.tick.allows name e.Level)
          = (fun e : Log => m.allows name e.Level) from
        funext (fun e => allows_flush m name e.Level)] at h
      show (m.tick.run rest).accounted name = _
      rw [h]
      show m.flush.accounted name ++ _ = _
      rw [accounted_flush]
      rfl

/-! ## C2 -/

theorem run_append (m : Module) (a b : List Event) : m.run (a ++ b) = (m.run a).run b := by
  unfold Module.run
  rw [List.foldl_append]

/-- Writing `n` times into a started engine whose queue has room for `n`
more entries only appends to the queue. -/
theorem run_writes_room (n : Nat) (m : Module) (q : Queue) (now : Time) (entry : Log)
    (hs : m.started = true) (hq : m.queue = some q) (hn : q.buf.length + n ≤ q.cap) :
    m.run (List.replicate n (Event.write now entry))
      = { m with queue := some { q with buf := q.buf ++ List.replicate n (stamp now entry) } } := by
  induction n generalizing m q with
  | zero =>
    simp only [List.replicate_zero, List.append_nil, Module.run, List.foldl_nil]
    cases m
    cases q
    simp only at hq
    rw [hq]
  | succ k ih =>
    have hroom : q.buf.length < q.cap := by omega
    have hw : m.Write now entry
        = { m with queue := some { q with buf := q.buf ++ [stamp now entry] } } := by
      simp only [Module.Write, hs, hq, hroom, if_true]
    rw [List.replicate_succ]
    show (m.Write now entry).run _ = _
    rw [hw, ih { m with queue := some { q with buf := q.buf ++ [stamp now entry] } }
      { q with buf := q.buf ++ [stamp now entry] } hs rfl
      (by simp only [List.length_append, List.length_singleton]; omega)]
    simp [List.replicate_succ]

theorem written_replicate_append (n : Nat) (now : Time) (entry : Log) (rest : List Event) :
    written (List.replicate n (Event.write now entry) ++ rest)
      = List.replicate n (stamp now entry) ++ written rest := by
  induction n with
  | zero => simp
  | succ k ih => simp [List.replicate_succ, written, ih]

theorem not_sublist_overtaken (n : Nat) :
    ¬ [lateEntry, earlyEntry].Sublist (List.replicate n earlyEntry ++ [lateEntry]) := by
  induction n with
  | zero =>
    intro h
    have := h.length_le
    simp at this
  | succ k ih =>
    intro h
    rw [List.replicate_succ, List.cons_append, List.sublist_cons_iff] at h
    rcases h with h | ⟨r, hr, -⟩
    · exact ih h
    · have : lateEntry = earlyEntry := (List.cons.inj hr).1
      exact absurd this (by decide)

/-- A tick of a worker whose batch is the one entry `head`. -/
theorem received_tick_single (x : Module) (w : Worker) (head : Log) (name : String)
    (hw : x.worker = some w) (hb : w.batch = [head])
    (hal : x.allows name head.Level = true) :
    x.tick.received name = x.received name ++ [head] := by
  have h : x.tick = { x.dispatch [head] with worker := some { w with batch := [] } } := by
    simp only [Module.tick, Module.flush, hw, hb]
    simp
  rw [h]
  calc _ = (x.dispatch [head]).received name := received_of_instances _ _ rfl name
    _ = x.received name ++ [head] := by
        rw [received_dispatch]
        simp [hal]

/-- A receive of a worker with an empty batch. -/
theorem recv_single (x : Module) (w : Worker) (q : Queue) (head : Log) (rest : List Log)
    (hw : x.worker = some w) (hbatch : w.batch = []) (hq : x.queue = some q)
    (hb : q.buf = head :: rest) :
    x.recv.worker = some { w with batch := [head] } ∧ x.recv.instances = x.instances := by
  have h : x.recv = { x with queue := some { q with buf := rest }
                             worker := some { w with batch := [head] } } := by
    simp only [Module.recv, hq, hw, hb, hbatch, batchCap]
    simp
  rw [h]
  exact ⟨rfl, rfl⟩

/-- A write into a full queue, then one receive and one tick of a worker with
an empty batch: the written entry reaches the connection before the head of
the queue. -/
theorem received_overtake (m : Module) (q : Queue) (w : Worker) (now : Time)
    (late head : Log) (rest : List Log) (name : String)
    (hs : m.started = true) (hq : m.queue = some q) (hb : q.buf = head :: rest)
    (hfull : ¬ q.buf.length < q.cap) (hw : m.worker = some w) (hbatch : w.batch = [])
    (hlate : m.allows name (stamp now late).Level = true)
    (hhead : m.allows name head.Level = true) :
    (m.run [Event.write now late, Event.recv, Event.tick]).received name
      = m.received name ++ [stamp now late, head] := by
  have h1 : m.Write now late = m.dispatch [stamp now late] := by
    simp only [Module.Write, hs, hq, hfull, if_false]
  obtain ⟨h2, h3⟩ := recv_single (m.dispatch [stamp now late]) w q head rest hw hbatch hq hb
  show (((m.Write now late).recv).tick).received name = _
  rw [h1, received_tick_single _ _ head name h2 rfl
      (by rw [allows_recv, allows_dispatch, hhead]),
    received_of_instances _ _ h3 name, received_dispatch]
  simp [hlate]

/-- Refutation of C2 as stated: on the started engine with the one instance
`default`, which allows every level, 1024 writes fill the queue, the next
write is dispatched at once, and after one receive and one tick the connection
has received the entry written last before an entry written first. -/
theorem write_overtakes_full_queue :
    openedModule.Start.started = true ∧
    openedModule.Start.allows "default" LevelInfo = true ∧
    written overtakingTrace = List.replicate 1024 earlyEntry ++ [lateEntry] ∧
    (openedModule.Start.run overtakingTrace).received "default" = [lateEntry, earlyEntry] ∧
    ¬ ((openedModule.Start.run overtakingTrace).received "default").Sublist
        (written overtakingTrace) := by
  have hw : written overtakingTrace = List.replicate 1024 earlyEntry ++ [lateEntry] := by
    unfold overtakingTrace
    rw [written_replicate_append]
    rfl
  have hfill := run_writes_room 1024 openedModule.Start { cap := 1024, buf := [] }
    ⟨1700000002, 0⟩ earlyEntry rfl rfl (by decide)
  have hr : (openedModule.Start.run overtakingTrace).received "default"
      = [lateEntry, earlyEntry] := by
    unfold overtakingTrace
    rw [run_append, hfill]
    exact received_overtake _ { cap := 1024, buf := List.replicate 1024 earlyEntry }
      { flushEvery := 200 * 1000000, batch := [] } ⟨1700000002, 0⟩ lateEntry earlyEntry
      (List.replicate 1023 earlyEntry) "default" rfl rfl rfl
      (by
        show ¬ (List.replicate 1024 earlyEntry).length < 1024
        rw [List.length_replicate]
        decide) rfl rfl rfl rfl
  refine ⟨rfl, rfl, hw, hr, ?_⟩
  rw [hr, hw]
  exact not_sublist_overtaken 1024

theorem pending_flush_subset (m : Module) (e : Log) (he : e ∈ m.flush.pending) :
    e ∈ m.pending := by
  rcases flush_cases m with h | ⟨w, hw, -, h⟩
  · rw [h] at he
    exact he
  · have hp : m.flush.pending = (match m.queue with
        | some q => q.buf
        | none => []) := by
      rw [h]
      rfl
    rw [hp] at he
    unfold Module.pending
    exact List.mem_append_right _ he

theorem pending_recv_subset (m : Module) (e : Log) (he : e ∈ m.recv.pending) :
    e ∈ m.pending := by
  rcases recv_cases m with h | ⟨w, q, entry, rest, hw, hq, hb, m1, -, -, -, hq1, hw1, h⟩
  · rw [h] at he
    exact he
  · have h1 : m1.pending = m.pending := by
      unfold Module.pending
      rw [hq1, hw1, hw, hq]
      simp [hb]
    rcases h with h | h
    · rw [h, h1] at he
      exact he
    · rw [h] at he
      have := pending_flush_subset m1 e he
      rw [h1] at this
      exact this

theorem pending_Write_subset (m : Module) (now : Time) (entry e : Log)
    (he : e ∈ (m.Write now entry).pending) : e ∈ m.pending ∨ e = stamp now entry := by
  rcases Write_cases m now entry with ⟨-, q, hq, h⟩ | ⟨-, h⟩
  · rw [h] at he
    unfold Module.pending at he ⊢
    rw [hq]
    simp only [List.mem_append, List.mem_singleton] at he ⊢
    tauto
  · rw [h] at he
    exact Or.inl he

theorem pending_run_subset (m : Module) (events : List Event) (e : Log)
    (he : e ∈ (m.run events).pending) : e ∈ m.pending ++ written events := by
  induction events generalizing m with
  | nil => simpa [Module.run, written] using he
  | cons ev rest ih =>
    have h := ih (m.step ev) he
    rw [List.mem_append] at h ⊢
    cases ev with
    | write now entry =>
      simp only [written, List.mem_cons]
      rcases h with h | h
      · rcases pending_Write_subset m now entry e h with h | h
        · exact Or.inl h
        · exact Or.inr (Or.inl h)
      · exact Or.inr (Or.inr h)
    | recv =>
      simp only [written]
      rcases h with h | h
      · exact Or.inl (pending_recv_subset m e h)
      · exact Or.inr h
    | tick =>
      simp only [written]
      rcases h with h | h
      · exact Or.inl (pending_flush_subset m e h)
      · exact Or.inr h

theorem Merge_append_left {α : Type} (p : List α) {a b l : List α} (h : Merge a b l) :
    Merge (p ++ a) b (p ++ l) := by
  induction p with
  | nil => exact h
  | cons x rest ih => exact Merge.left x ih

theorem Merge_append_right {α : Type} (p : List α) {a b l : List α} (h : Merge a b l) :
    Merge a (p ++ b) (p ++ l) := by
  induction p with
  | nil => exact h
  | cons x rest ih => exact Merge.right x ih

/-- A flush hands a first part of what the worker holds to the instances. -/
theorem flush_hands_over (m : Module) (name : String) :
    ∃ b, m.pending = b ++ m.flush.pending ∧
      m.flush.received name
        = m.received name ++ b.filter (fun e => m.allows name e.Level) := by
  rcases flush_cases m with h | ⟨w, hw, -, h⟩
  · exact ⟨[], by rw [h]; rfl, by rw [h]; simp⟩
  · refine ⟨w.batch, ?_, ?_⟩
    · have hp : m.flush.pending = (match m.queue with
          | some q => q.buf
          | none => []) := by
        rw [h]
        rfl
      rw [hp]
      unfold Module.pending
      rw [hw]
    · rw [received_of_instances m.flush (m.dispatch w.batch) (by rw [h]), received_dispatch]

theorem recv_hands_over (m : Module) (name : String) :
    ∃ b, m.pending = b ++ m.recv.pending ∧
      m.recv.received name
        = m.received name ++ b.filter (fun e => m.allows name e.Level) := by
  rcases recv_cases m with h | ⟨w, q, entry, rest, hw, hq, hb, m1, hi, -, -, hq1, hw1, h⟩
  · exact ⟨[], by rw [h]; rfl, by rw [h]; simp⟩
  · have h1 : m1.pending = m.pending := by
      unfold Module.pending
      rw [hq1, hw1, hw, hq]
      simp [hb]
    rcases h with h | h
    · exact ⟨[], by rw [h, h1]; rfl, by rw [h, received_of_instances m1 m hi]; simp⟩
    · obtain ⟨b, hb1, hb2⟩ := flush_hands_over m1 name
      refine ⟨b, by rw [h, ← hb1, h1], ?_⟩
      rw [h, hb2, received_of_instances m1 m hi,
        show (fun e : Log => m1.allows name e.Level) = (fun e : Log => m.allows name e.Level)
          from funext (fun e => allows_of_instances m1 m hi name e.Level)]

/-- Along every trace, what an instance receives is an interleaving of the
queued entries the worker has flushed, in the order of their Write calls, and
of the entries dispatched at once, in the order of theirs. -/
theorem received_run_merge (m : Module) (events : List Event) (name : String) :
    ∃ flushed delta,
      (m.run events).received name = m.received name ++ delta ∧
      Merge flushed ((m.direct events).filter (fun e => m.allows name e.Level)) delta ∧
      flushed ++ (m.run events).pending.filter (fun e => m.allows name e.Level)
        = (m.pending ++ m.enqueued events).filter (fun e => m.allows name e.Level) := by
  induction events generalizing m with
  | nil =>
    refine ⟨[], [], by simp [Module.run], ?_, by simp [Module.run, Module.enqueued]⟩
    simp only [Module.direct, List.filter_nil]
    exact Merge.nil
  | cons ev rest ih =>
    obtain ⟨flushed, delta, h1, h2, h3⟩ := ih (m.step ev)
    rw [allows_fun_step] at h2 h3
    have hrun : m.run (ev :: rest) = (m.step ev).run rest := rfl
    rw [hrun]
    cases ev with
    | write now entry =>
      simp only [Module.step] at h1 h2 h3 ⊢
      rcases Write_cases m now entry with ⟨hroom, q, hq, h⟩ | ⟨hroom, h⟩
      · have hrec : (m.Write now entry).received name = m.received name := by
          rw [h]
          exact received_of_instances _ m rfl name
        have hpen : (m.Write now entry).pending = m.pending ++ [stamp now entry] := by
          rw [h]
          unfold Module.pending
          rw [hq]
          simp
        refine ⟨flushed, delta, by rw [h1, hrec], ?_, ?_⟩
        · simpa [Module.direct, hroom] using h2
        · rw [h3, hpen]
          simp [Module.enqueued, hroom]
      · have hrec : (m.Write now entry).received name
            = m.received name ++ [stamp now entry].filter (fun e => m.allows name e.Level) := by
          rw [h, received_dispatch]
        have hpen : (m.Write now entry).pending = m.pending := by
          rw [h]
          rfl
        refine ⟨flushed,
          [stamp now entry].filter (fun e => m.allows name e.Level) ++ delta,
          by rw [h1, hrec, List.append_assoc], ?_, ?_⟩
        · simp only [Module.direct, hroom, Bool.false_eq_true, if_false, List.filter_append]
          exact Merge_append_right _ h2
        · rw [h3, hpen]
          simp [Module.enqueued, hroom]
    | recv =>
      simp only [Module.step] at h1 h2 h3 ⊢
      obtain ⟨b, hb1, hb2⟩ := recv_hands_over m name
      refine ⟨b.filter (fun e => m.allows name e.Level) ++ flushed,
        b.filter (fun e => m.allows name e.Level) ++ delta,
        by rw [h1, hb2, List.append_assoc], ?_, ?_⟩
      · simp only [Module.direct]
        exact Merge_append_left _ h2
      · rw [List.append_assoc, h3, hb1]
        simp [Module.enqueued, List.filter_append]
    | tick =>
      simp only [Module.step, Module.tick] at h1 h2 h3 ⊢
      obtain ⟨b, hb1, hb2⟩ := flush_hands_over m name
      refine ⟨b.filter (fun e => m.allows name e.Level) ++ flushed,
        b.filter (fun e => m.allows name e.Level) ++ delta,
        by rw [h1, hb2, List.append_assoc], ?_, ?_⟩
      · simp only [Module.direct, Module.tick]
        exact Merge_append_left _ h2
      · rw [List.append_assoc, h3, hb1]
        simp [Module.enqueued, Module.tick, List.filter_append]

/-- Every `Write` of a trace either finds room or is dispatched at once. -/
theorem written_merge (m : Module) (events : List Event) :
    Merge (m.enqueued events) (m.direct events) (written events) := by
  induction events generalizing m with
  | nil => exact Merge.nil
  | cons ev rest ih =>
    cases ev with
    | write now entry =>
      cases hroom : m.hasRoom with
      | true =>
        simp only [Module.enqueued, Module.direct, written, hroom, if_true]
        exact Merge.left _ (ih _)
      | false =>
        simp only [Module.enqueued, Module.direct, written, hroom, Bool.false_eq_true,
          if_false]
        exact Merge.right _ (ih _)
    | recv =>
      simp only [Module.enqueued, Module.direct, written]
      exact ih _
    | tick =>
      simp only [Module.enqueued, Module.direct, written]
      exact ih _

/-- C2 (amended): order is kept among the entries that go through the queue.
For every engine state, every trace of Write, receive and tick steps and every
instance: (1) each written entry either found room in the queue or was
dispatched at once; (2) at the state reached, what the connection of the
instance has received since the beginning is an interleaving of two lists,
each in the order of its Write calls: the allowed queued entries that are no
longer pending (a first part of the entries the worker held and of the
entries that found room), and the allowed entries dispatched at once; (3) when
every Write of the trace finds room, the entries received, followed by the
allowed entries of the pending batch and of the queue, are what was received
before followed by the allowed entries the worker held and the written
entries, in the order of the Write calls; (4) for an instance that allows
every level involved the filter drops nothing. -/
theorem queued_writes_keep_order (m : Module) (events : List Event) (name : String) :
    Merge (m.enqueued events) (m.direct events) (written events) ∧
    (∃ flushed delta,
      (m.run events).received name = m.received name ++ delta ∧
      Merge flushed ((m.direct events).filter (fun e => m.allows name e.Level)) delta ∧
      flushed ++ (m.run events).pending.filter (fun e => m.allows name e.Level)
        = (m.pending ++ m.enqueued events).filter (fun e => m.allows name e.Level)) ∧
    (m.neverFull events = true →
      (m.run events).received name
          ++ (m.run events).pending.filter (fun e => m.allows name e.Level)
        = m.received name
          ++ (m.pending ++ written events).filter (fun e => m.allows name e.Level)) ∧
    (m.neverFull events = true →
      (∀ e ∈ m.pending ++ written events, m.allows name e.Level = true) →
      (m.run events).received name ++ (m.run events).pending
        = m.received name ++ (m.pending ++ written events)) := by
  have hexact : m.neverFull events = true →
      (m.run events).received name
          ++ (m.run events).pending.filter (fun e => m.allows name e.Level)
        = m.received name
          ++ (m.pending ++ written events).filter (fun e => m.allows name e.Level) := by
    intro hroom
    have h := accounted_run_exact m events name hroom
    unfold Module.accounted at h
    rw [show (fun e : Log => (m.run events).allows name e.Level)
        = (fun e : Log => m.allows name e.Level) from
      funext (fun e => allows_run m events name e.Level)] at h
    rw [h, List.filter_append, List.append_assoc]
  refine ⟨written_merge m events, received_run_merge m events name, hexact, ?_⟩
  intro hroom hall
  have h1 := hexact hroom
  have hf : (m.pending ++ written events).filter (fun e => m.allows name e.Level)
      = m.pending ++ written events := List.filter_eq_self.2 hall
  rw [hf] at h1
  have hf2 : (m.run events).pending.filter (fun e => m.allows name e.Level)
      = (m.run events).pending :=
    List.filter_eq_self.2 (fun e he => hall e (pending_run_subset m events e he))
  rw [hf2] at h1
  exact h1

/-- Witness of C2 (amended): two writes into the freshly started engine, then
one receive and one tick; both writes find room, the instance `default` has
received the first entry and the second is still in the queue. -/
theorem queued_writes_keep_order_witness :
    openedModule.Start.neverFull roomyTrace = true ∧
    (openedModule.Start.run roomyTrace).received "default"
        ++ (openedModule.Start.run roomyTrace).pending.filter
            (fun e => openedModule.Start.allows "default" e.Level)
      = openedModule.Start.received "default"
        ++ (openedModule.Start.pending ++ written roomyTrace).filter
            (fun e => openedModule.Start.allows "default" e.Level) ∧
    (openedModule.Start.run roomyTrace).received "default" = [earlyEntry] ∧
    (openedModule.Start.run roomyTrace).pending = [lateEntry] :=
  ⟨rfl, (queued_writes_keep_order openedModule.Start roomyTrace "default").2.2.1 rfl,
   rfl, rfl⟩

/-! ## C3 -/

theorem drain_eq (batch queued : List Log) : drain batch queued = batch ++ queued := by
  induction queued generalizing batch with
  | nil => simp [drain]
  | cons entry rest ih => simp [drain, ih]

theorem pending_flush_of_empty_queue (x : Module)
    (hq : ∀ q, x.queue = some q → q.buf = []) : x.flush.pending = [] := by
  unfold Module.pending
  rw [flush_worker, flush_queue]
  have h1 : (match x.queue with
      | some q => q.buf
      | none => []) = [] := by
    cases hx : x.queue with
    | none => rfl
    | some q => exact hq q hx
  rw [h1]
  cases x.worker <;> rfl

/-- `Stop` on a started engine returns; the worker is gone, nothing is
pending, and every instance has received what it had received and what the
worker held for it. -/
theorem Stop_of_live (m : Module) (h : m.live = true) :
    ∃ m1 : Module, m.Stop = some m1 ∧ m1.started = false ∧ m1.worker = none ∧
      m1.pending = [] ∧ (∀ q, m1.queue = some q → q.buf = []) ∧
      ∀ name, m1.received name = m.accounted name := by
  obtain ⟨hs, hc, hw⟩ := (live_iff m).1 h
  cases hc1 : m.stopChan with
  | none => simp [hc1] at hc
  | some c =>
    cases hw1 : m.worker with
    | none => simp [hw1] at hw
    | some w =>
      obtain ⟨x, hx⟩ : ∃ x : Module, x =
          { m with
            started := false
            stopChan := some true
            queue := m.queue.map (fun q => { q with buf := [] })
            worker := some { w with batch := drain w.batch (match m.queue with
              | some q => q.buf
              | none => []) } } := ⟨_, rfl⟩
      have hstop : m.Stop = some { x.flush with worker := none, doneChan := some true } := by
        simp only [Module.Stop, hs, hc1, hw1, hx]
        rfl
      have hxq : ∀ q, x.queue = some q → q.buf = [] := by
        intro q hq
        rw [hx] at hq
        cases hm : m.queue with
        | none => simp [hm] at hq
        | some q0 =>
          simp only [hm, Option.map_some', Option.some.injEq] at hq
          rw [← hq]
      have hxp : x.pending = m.pending := by
        rw [hx]
        unfold Module.pending
        rw [hw1]
        cases hm : m.queue <;> simp [drain_eq]
      have hxi : x.instances = m.instances := by rw [hx]
      have hfq : (match x.flush.queue with
          | some q => q.buf
          | none => []) = [] := by
        cases hf : x.flush.queue with
        | none => rfl
        | some q =>
          rw [flush_queue] at hf
          exact hxq q hf
      refine ⟨_, hstop, ?_, rfl, ?_, ?_, ?_⟩
      · show x.flush.started = false
        rw [flush_started, hx]
      · show [] ++ (match x.flush.queue with
          | some q => q.buf
          | none => []) = []
        rw [hfq]
        rfl
      · intro q hq
        have hq2 : x.flush.queue = some q := hq
        rw [flush_queue] at hq2
        exact hxq q hq2
      · intro name
        have h1 : x.flush.accounted name = x.flush.received name := by
          unfold Module.accounted
          rw [pending_flush_of_empty_queue x hxq]
          simp
        have h2 : x.accounted name = m.accounted name := by
          unfold Module.accounted
          rw [hxp, received_of_instances x m hxi,
            show (fun e : Log => x.allows name e.Level) = (fun e : Log => m.allows name e.Level)
              from funext (fun e => allows_of_instances x m hxi name e.Level)]
        show x.flush.received name = _
        rw [← h1, accounted_flush, h2]

/-- C3: Stop drains.  For every started engine state (any queue contents, any
pending batch) and every trace of Write, receive and tick steps from it, Stop
returns; afterwards the engine is not started, the worker has ended, the queue
and the batch are empty, and every instance has received, up to the order,
exactly what it had received before, the allowed entries the worker held and
the allowed entries of all the Write calls of the trace. -/
theorem Stop_drains (m : Module) (hlive : m.live = true) (events : List Event) :
    ∃ m1 : Module, (m.run events).Stop = some m1 ∧ m1.started = false ∧ m1.worker = none ∧
      m1.pending = [] ∧ (∀ q, m1.queue = some q → q.buf = []) ∧
      ∀ name, (m1.received name).Perm
        (m.received name
          ++ (m.pending ++ written events).filter (fun e => m.allows name e.Level)) := by
  obtain ⟨m1, h1, h2, h3, h4, h5, h6⟩ := Stop_of_live (m.run events) (live_run m events hlive)
  refine ⟨m1, h1, h2, h3, h4, h5, ?_⟩
  intro name
  rw [h6 name, List.filter_append, ← List.append_assoc]
  exact accounted_run_perm m events name

theorem live_Start (m : Module) (h : m.started = false) : m.Start.live = true := by
  unfold Module.Start
  simp only [h]
  rfl

/-- Witness of C3: the freshly started engine and the trace with a full queue. -/
theorem Stop_drains_witness :
    openedModule.Start.live = true ∧
    ∃ m1 : Module, (openedModule.Start.run overtakingTrace).Stop = some m1 ∧
      m1.started = false ∧ m1.worker = none ∧
      m1.pending = [] ∧ (∀ q, m1.queue = some q → q.buf = []) ∧
      ∀ name, (m1.received name).Perm
        (openedModule.Start.received name
          ++ (openedModule.Start.pending ++ written overtakingTrace).filter
              (fun e => openedModule.Start.allows name e.Level)) :=
  ⟨rfl, Stop_drains openedModule.Start rfl overtakingTrace⟩

/-! ## C4 and C5 -/

/-- The instance registry after `dispatch`, whatever the `Write` calls answer. -/
theorem dispatch_instances_eq (m : Module) (entries : List Log) :
    (m.dispatch entries).instances
      = m.instances.map (fun p => (p.1,
          { p.2 with connect := { p.2.connect with
              writes := p.2.connect.writes ++
                (if entries.filter (fun entry => p.2.Allow entry.Level) = [] then []
                 else [entries.filter (fun entry => p.2.Allow entry.Level)]) } })) := by
  rw [dispatch_instances]
  apply List.map_congr_left
  intro p _
  rw [dispatchTo_fst]

theorem stamp_Level (now : Time) (entry : Log) : (stamp now entry).Level = entry.Level := by
  unfold stamp
  split_ifs <;> rfl

theorem dispatch_single_instances (m : Module) (entry : Log) :
    (m.dispatch [entry]).instances
      = m.instances.map (fun p => (p.1,
          { p.2 with connect := { p.2.connect with
              writes := p.2.connect.writes ++
                (if p.2.Allow entry.Level = true then [[entry]] else []) } })) := by
  rw [dispatch_instances_eq]
  apply List.map_congr_left
  intro p _
  by_cases h : p.2.Allow entry.Level = true <;> simp [List.filter, h]

/-- C4: backpressure fallback.  When the engine is started and the queue has
room, Write appends the (stamped) entry to the queue and leaves every instance
as it is.  When the engine is not started, or it is started and the queue
holds exactly its capacity, Write leaves the queue unchanged and is the
dispatch of that single entry: the connection of every instance that allows
the level of the entry gets one Write call with that entry, the others none.
In every state Write either enqueues the entry or dispatches it. -/
theorem Write_enqueues_or_dispatches (m : Module) (now : Time) (entry : Log) :
    (∀ q, m.started = true → m.queue = some q → q.buf.length < q.cap →
      m.Write now entry
          = { m with queue := some { q with buf := q.buf ++ [stamp now entry] } } ∧
        (m.Write now entry).instances = m.instances) ∧
    ((m.started = false ∨ (m.started = true ∧ ∃ q, m.queue = some q ∧ q.buf.length = q.cap)) →
      m.Write now entry = m.dispatch [stamp now entry] ∧
        (m.Write now entry).queue = m.queue ∧
        (m.Write now entry).instances
          = m.instances.map (fun p => (p.1,
              { p.2 with connect := { p.2.connect with
                  writes := p.2.connect.writes ++
                    (if p.2.Allow entry.Level = true then [[stamp now entry]] else []) } }))) ∧
    ((∃ q, m.queue = some q ∧
        (m.Write now entry).queue = some { q with buf := q.buf ++ [stamp now entry] }) ∨
      m.Write now entry = m.dispatch [stamp now entry]) := by
  refine ⟨?_, ?_, ?_⟩
  · intro q hs hq hroom
    have h : m.Write now entry
        = { m with queue := some { q with buf := q.buf ++ [stamp now entry] } } := by
      simp only [Module.Write, hs, hq, hroom, if_true]
    rw [h]
    exact ⟨rfl, rfl⟩
  · intro hcase
    have h : m.Write now entry = m.dispatch [stamp now entry] := by
      rcases hcase with hs | ⟨hs, q, hq, hfull⟩
      · simp only [Module.Write, hs]
      · have hroom : ¬ q.buf.length < q.cap := by omega
        simp only [Module.Write, hs, hq, hroom, if_false]
    rw [h]
    refine ⟨rfl, rfl, ?_⟩
    rw [dispatch_single_instances]
    simp only [stamp_Level]
  · rcases Write_cases m now entry with ⟨-, q, hq, h⟩ | ⟨-, h⟩
    · left
      refine ⟨q, hq, ?_⟩
      rw [h]
    · exact Or.inr h

/-- C5: dispatch fan-out.  For every engine state and every batch, dispatch
leaves each instance as it was except that its connection has got one more
Write call, with the subsequence of the batch whose levels that instance
allows, in the order of the batch; an instance for which that subsequence is
empty gets no call; what the Write of any connection answers has no part in
it.  With the two instances of thresholds ERROR and DEBUG, dispatching one
INFO entry gives the DEBUG instance one call with that entry and the ERROR instance
none. -/
theorem dispatch_fan_out (m : Module) (entries : List Log) :
    (m.dispatch entries).instances
      = m.instances.map (fun p => (p.1,
          { p.2 with connect := { p.2.connect with
              writes := p.2.connect.writes ++
                (if entries.filter (fun entry => p.2.Allow entry.Level) = [] then []
                 else [entries.filter (fun entry => p.2.Allow entry.Level)]) } })) ∧
    (fanOutModule.instances.map (fun p => (p.1, p.2.Config.Level, p.2.connect.writes))
      = [("errors", LevelError, []), ("all", LevelDebug, [])]) ∧
    ((fanOutModule.dispatch [earlyEntry]).instances.map (fun p => (p.1, p.2.connect.writes))
      = [("errors", []), ("all", [[earlyEntry]])]) :=
  ⟨dispatch_instances_eq m entries, rfl, rfl⟩

/-- The cases of C4 at work: on the freshly started engine Write enqueues,
on the opened engine that is not started it dispatches to the one instance. -/
theorem Write_enqueues_or_dispatches_witness :
    (openedModule.Start.Write ⟨1700000002, 0⟩ earlyEntry
        = { openedModule.Start with
            queue := some { cap := 1024, buf := [] ++ [stamp ⟨1700000002, 0⟩ earlyEntry] } } ∧
      (openedModule.Start.Write ⟨1700000002, 0⟩ earlyEntry).instances
        = openedModule.Start.instances) ∧
    (openedModule.Write ⟨1700000002, 0⟩ earlyEntry
        = openedModule.dispatch [stamp ⟨1700000002, 0⟩ earlyEntry] ∧
      (openedModule.Write ⟨1700000002, 0⟩ earlyEntry).queue = openedModule.queue ∧
      (openedModule.Write ⟨1700000002, 0⟩ earlyEntry).instances
        = openedModule.instances.map (fun p => (p.1,
            { p.2 with connect := { p.2.connect with
                writes := p.2.connect.writes ++
                  (if p.2.Allow earlyEntry.Level = true
                    then [[stamp ⟨1700000002, 0⟩ earlyEntry]] else []) } }))) ∧
    (openedModule.Write ⟨1700000002, 0⟩ earlyEntry).received "default" = [earlyEntry] :=
  ⟨(Write_enqueues_or_dispatches openedModule.Start ⟨1700000002, 0⟩ earlyEntry).1
      { cap := 1024, buf := [] } rfl rfl (by decide),
   (Write_enqueues_or_dispatches openedModule ⟨1700000002, 0⟩ earlyEntry).2.1 (Or.inl rfl),
   rfl⟩

/-! ## C6 -/

theorem Open_opened (m m1 : Module) (h : m.Open = (m1, none)) : m1.opened = true := by
  unfold Module.Open at h
  cases ho : m.opened with
  | true =>
    simp only [ho, if_true, Prod.mk.injEq, and_true] at h
    rw [← h, ho]
  | false =>
    simp only [ho] at h
    cases hl : openLoop m m.configs with
    | mk m2 res =>
      cases res with
      | none =>
        simp only [hl, Bool.false_eq_true, if_false, Prod.mk.injEq, and_true] at h
        rw [← h]
      | some msg => simp [hl] at h

theorem Start_started (m : Module) : m.Start.started = true := by
  unfold Module.Start
  cases hs : m.started with
  | true => simpa using hs
  | false => simp

theorem Stop_started (m m1 : Module) (h : m.Stop = some m1) : m1.started = false := by
  unfold Module.Stop at h
  cases hs : m.started with
  | false =>
    simp only [hs, Bool.not_false, if_true, Option.some.injEq] at h
    rw [← h, hs]
  | true =>
    simp only [hs] at h
    cases hc : m.stopChan with
    | none => simp [hc] at h
    | some c =>
      cases hw : m.worker with
      | none => simp [hc, hw] at h
      | some w =>
        simp only [hc, hw, Bool.not_true, Bool.false_eq_true, if_false,
          Option.some.injEq] at h
        rw [← h]
        show (Module.flush _).started = false
        rw [flush_started]

theorem Close_opened (m : Module) : m.Close.1.opened = false := by
  unfold Module.Close
  cases ho : m.opened with
  | true => simp
  | false => simpa using ho

theorem Open_of_opened (x : Module) (h : x.opened = true) : x.Open = (x, none) := by
  simp only [Module.Open, h, if_true]

theorem Start_of_started (x : Module) (h : x.started = true) : x.Start = x := by
  simp only [Module.Start, h, if_true]

theorem Stop_of_not_started (x : Module) (h : x.started = false) : x.Stop = some x := by
  simp only [Module.Stop, h, Bool.not_false, if_true]

theorem Close_of_not_opened (x : Module) (h : x.opened = false) : x.Close = (x, []) := by
  simp only [Module.Close, h, Bool.not_false, if_true]

/-- C6: lifecycle idempotence.  On every engine state: a second Open after an
Open that did not panic returns the same state without panic; a second Start
returns the state the first Start left; a second Stop after a Stop that
returned returns the same state; a second Close returns the state the first
Close left and calls Close on no connection. -/
theorem lifecycle_idempotent (m : Module) :
    (∀ m1, m.Open = (m1, none) → m1.Open = (m1, none)) ∧
    m.Start.Start = m.Start ∧
    (∀ m1, m.Stop = some m1 → m1.Stop = some m1) ∧
    m.Close.1.Close = (m.Close.1, []) := by
  refine ⟨?_, ?_, ?_, ?_⟩
  · intro m1 h
    exact Open_of_opened m1 (Open_opened m m1 h)
  · exact Start_of_started _ (Start_started m)
  · intro m1 h
    exact Stop_of_not_started m1 (Stop_started m m1 h)
  · exact Close_of_not_opened _ (Close_opened m)

/-- The four operations of C6 at work: Open succeeds on the registered engine
and creates the instance, Start creates queue and worker, Stop returns, Close
closes the connection; each of them a second time changes nothing. -/
theorem lifecycle_idempotent_witness :
    (registered [("default", normalizeConfig levelStrings (thresholdConfig LevelDebug))]).Open
        = (openedModule, none) ∧
      openedModule.Open = (openedModule, none) ∧
      openedModule.instances.map (fun p => p.1) = ["default"] ∧
    openedModule.Start.started = true ∧ openedModule.Start.Start = openedModule.Start ∧
    (∃ m1, openedModule.Start.Stop = some m1 ∧ m1.Stop = some m1) ∧
    (openedModule.Close.2.map (fun p => (p.1, p.2.closes)) = [("default", 1)] ∧
      openedModule.Close.1.Close = (openedModule.Close.1, [])) :=
  ⟨rfl,
   (lifecycle_idempotent
      (registered [("default", normalizeConfig levelStrings (thresholdConfig LevelDebug))])).1
      openedModule rfl,
   rfl, rfl,
   (lifecycle_idempotent openedModule).2.1,
   ⟨_, rfl, (lifecycle_idempotent openedModule.Start).2.2.1 _ rfl⟩,
   rfl, (lifecycle_idempotent openedModule).2.2.2⟩

/-! ## C9 -/

/-- C9 at the failing input `parseBody("%d%%", 5)`: the format has one verb
and one escape and is followed by one argument, the verb count of the code is
three percent signs less one escape, that is two, and the body is the
space-joined form, not the formatted one, whatever `fmt.Sprintf` answers. -/
theorem parseBody_escape_counted_as_verb (sprintf : String → List Any → String)
    (sprint : Any → String) :
    stringsCount "%d%%" "%" = 3 ∧ stringsCount "%d%%" "%%" = 1 ∧
    Module.parseBody sprintf sprint [.str "%d%%", .int 5]
      = " ".intercalate [sprint (.str "%d%%"), sprint (.int 5)] :=
  ⟨by decide, by decide, rfl⟩

/-- The cases of `parseBody` that do not depend on the verb count, and the
verb branch for a format without escape: no argument gives the empty string,
one argument its default form, and a format with one `%d` followed by one
argument is formatted by `fmt.Sprintf`. -/
theorem parseBody_cases (sprintf : String → List Any → String) (sprint : Any → String)
    (arg : Any) :
    Module.parseBody sprintf sprint [] = "" ∧
    Module.parseBody sprintf sprint [arg] = sprint arg ∧
    Module.parseBody sprintf sprint [.str "n=%d", arg] = sprintf "n=%d" [arg] ∧
    Module.parseBody sprintf sprint [.int 1, arg] = " ".intercalate [sprint (.int 1), sprint arg] :=
  ⟨rfl, rfl, rfl, rfl⟩

/-! ## C10 -/

/-- The canonical name of a level is one of the eight names, or empty for a
value that is no level. -/
theorem levelName_cases (level : Level) :
    levelName level = "FATAL" ∨ levelName level = "PANIC" ∨ levelName level = "ERROR" ∨
    levelName level = "WARNING" ∨ levelName level = "NOTICE" ∨ levelName level = "INFO" ∨
    levelName level = "TRACE" ∨ levelName level = "DEBUG" ∨ levelName level = "" := by
  unfold levelName levelStrings
  simp only [mapGet]
  split_ifs <;> simp

/-- No canonical name holds the placeholder `%body%`. -/
theorem stringsReplaceAll_levelName_body (level : Level) (body : String) :
    stringsReplaceAll (levelName level) "%body%" body = levelName level := by
  rcases levelName_cases level with h | h | h | h | h | h | h | h | h <;>
  · rw [h]
    rfl

theorem stringsReplaceAll_body_self (body : String) :
    stringsReplaceAll "%body%" "%body%" body = body := by
  simp [stringsReplaceAll, replaceFrom, startsWith]

theorem stringsReplaceAll_level_self (value : String) :
    stringsReplaceAll "%level%" "%level%" value = value := by
  simp [stringsReplaceAll, replaceFrom, startsWith]

/-- C11: template substitution order.  In template mode Format(entry) is the
result of the seven global replacements applied one after another, each to the
result of the one before, starting from the format template (the default
template when the configured one is empty), in the order `%nano%`, `%unix%`,
`%time%`, `%name%`, `%flag%`, `%level%`, `%body%`.  So a value put in for an
earlier placeholder is substituted again when it holds a later placeholder:
an instance named `%body%` with the template `%name%` formats every entry to
its body, and an instance with the flag `%level%` and the template `%flag%`
formats every entry to the name of its level. -/
theorem Format_template_order (timeFormat : Time → String)
    (jsonMarshal : List (String × Any) → String) (inst : Instance) (entry : Log)
    (hjson : inst.Config.Json = false) :
    inst.Format timeFormat jsonMarshal entry
      = [("%nano%", formatInt entry.Time.UnixNano),
         ("%unix%", formatInt entry.Time.Unix),
         ("%time%", timeFormat entry.Time),
         ("%name%", inst.Name),
         ("%flag%", inst.Config.Flag),
         ("%level%", levelName entry.Level),
         ("%body%", entry.Body)].foldl
          (fun message p => stringsReplaceAll message p.1 p.2)
          (if inst.Config.Format = "" then "%time% [%level%] %body%" else inst.Config.Format) ∧
    (inst.Name = "%body%" → inst.Config.Format = "%name%" →
      inst.Format timeFormat jsonMarshal entry = entry.Body) ∧
    (inst.Config.Flag = "%level%" → inst.Config.Format = "%flag%" →
      inst.Format timeFormat jsonMarshal entry = levelName entry.Level) := by
  have hfold : inst.Format timeFormat jsonMarshal entry
      = [("%nano%", formatInt entry.Time.UnixNano),
         ("%unix%", formatInt entry.Time.Unix),
         ("%time%", timeFormat entry.Time),
         ("%name%", inst.Name),
         ("%flag%", inst.Config.Flag),
         ("%level%", levelName entry.Level),
         ("%body%", entry.Body)].foldl
          (fun message p => stringsReplaceAll message p.1 p.2)
          (if inst.Config.Format = "" then "%time% [%level%] %body%"
            else inst.Config.Format) := by
    unfold Instance.Format
    simp only [hjson, Bool.false_eq_true, if_false, List.foldl_cons, List.foldl_nil]
  refine ⟨hfold, ?_, ?_⟩
  · intro hname hformat
    rw [hfold, hname, hformat, if_neg (by decide)]
    simp only [List.foldl_cons, List.foldl_nil]
    rw [show stringsReplaceAll "%name%" "%nano%" (formatInt entry.Time.UnixNano) = "%name%"
        from rfl,
      show stringsReplaceAll "%name%" "%unix%" (formatInt entry.Time.Unix) = "%name%" from rfl,
      show stringsReplaceAll "%name%" "%time%" (timeFormat entry.Time) = "%name%" from rfl,
      show stringsReplaceAll "%name%" "%name%" "%body%" = "%body%" from by decide,
      show stringsReplaceAll "%body%" "%flag%" inst.Config.Flag = "%body%" from rfl,
      show stringsReplaceAll "%body%" "%level%" (levelName entry.Level) = "%body%" from rfl,
      stringsReplaceAll_body_self]
  · intro hflag hformat
    rw [hfold, hflag, hformat, if_neg (by decide)]
    simp only [List.foldl_cons, List.foldl_nil]
    rw [show stringsReplaceAll "%flag%" "%nano%" (formatInt entry.Time.UnixNano) = "%flag%"
        from rfl,
      show stringsReplaceAll "%flag%" "%unix%" (formatInt entry.Time.Unix) = "%flag%" from rfl,
      show stringsReplaceAll "%flag%" "%time%" (timeFormat entry.Time) = "%flag%" from rfl,
      show stringsReplaceAll "%flag%" "%name%" inst.Name = "%flag%" from rfl,
      show stringsReplaceAll "%flag%" "%flag%" "%level%" = "%level%" from by decide,
      stringsReplaceAll_level_self, stringsReplaceAll_levelName_body]

/-- Witness of C11: the instance named `%body%` with the template `%name%`
formats the entry with the body `x %level% y` to that body, and the instance
with the flag `%level%` and the template `%flag%` formats it to `INFO`. -/
theorem Format_template_order_witness :
    (namedInstance "%body%" "" "%name%").Format (fun _ => "2023-11-14 22:13:20.000")
        (fun _ => "") tokenEntry = tokenEntry.Body ∧
    (namedInstance "svc" "%level%" "%flag%").Format (fun _ => "2023-11-14 22:13:20.000")
        (fun _ => "") tokenEntry = "INFO" :=
  ⟨(Format_template_order (fun _ => "2023-11-14 22:13:20.000") (fun _ => "")
      (namedInstance "%body%" "" "%name%") tokenEntry rfl).2.1 rfl rfl,
   (Format_template_order (fun _ => "2023-11-14 22:13:20.000") (fun _ => "")
      (namedInstance "svc" "%level%" "%flag%") tokenEntry rfl).2.2 rfl rfl⟩

/-! ## C15 -/

theorem levelStrings_names_nodup : (levelStrings.map Prod.snd).Nodup := by decide

theorem levelStrings_keys_nodup : (levelStrings.map Prod.fst).Nodup := by decide

/-- Two entries of the level table with the same name are the same entry. -/
theorem levelStrings_name_inj :
    ∀ e1 ∈ levelStrings, ∀ e2 ∈ levelStrings, e1.2 = e2.2 → e1 = e2 := by decide

/-- `parseLevel` on a string whose upper-cased form is a canonical name. -/
theorem parseLevel_str_of_name (toUpper : String → String) (order : List (Level × String))
    (horder : order.Perm levelStrings) (L : Level) (name s : String)
    (hmem : (L, name) ∈ levelStrings) (hs : toUpper s = name) :
    parseLevel toUpper order (.str s) = (L, true) := by
  have hex : ∃ x ∈ order, (toUpper s == x.2) = true :=
    ⟨(L, name), horder.mem_iff.2 hmem, by simp [hs]⟩
  cases hf : order.find? (fun entry => toUpper s == entry.2) with
  | none =>
    have := List.find?_isSome.2 hex
    simp [hf] at this
  | some entry =>
    have h1 : (toUpper s == entry.2) = true :=
      @List.find?_some _ (fun entry => toUpper s == entry.2) entry order hf
    have h2 : entry ∈ levelStrings := horder.mem_iff.1 (List.mem_of_find?_eq_some hf)
    have h3 : entry.2 = name := by
      rw [← hs]
      exact (beq_iff_eq.1 h1).symm
    have h4 : entry = (L, name) := levelStrings_name_inj entry h2 (L, name) hmem h3
    simp only [parseLevel, hf, h4]

/-- `parseLevel` on a string whose upper-cased form is no canonical name. -/
theorem parseLevel_str_of_no_name (toUpper : String → String) (order : List (Level × String))
    (horder : order.Perm levelStrings) (s : String)
    (hs : ∀ e ∈ levelStrings, toUpper s ≠ e.2) :
    parseLevel toUpper order (.str s) = (LevelDebug, false) := by
  have hf : order.find? (fun entry => toUpper s == entry.2) = none := by
    rw [List.find?_eq_none]
    intro x hx h
    exact hs x (horder.mem_iff.1 hx) (beq_iff_eq.1 h)
  simp only [parseLevel, hf]

theorem mapGet_mapSet_self {κ ν : Type} [DecidableEq κ] (m : List (κ × ν)) (k : κ) (v : ν) :
    mapGet (mapSet m k v) k = some v := by
  rw [mapGet_mapSet, if_pos rfl]

/-- The config `configure` stores under `name`. -/
theorem configure_stored (h : Host) (order : List (Level × String)) (m : Module)
    (name : String) (conf : Map) :
    mapGet (m.configure h order name conf).configs name
      = some (configureFields h order (m.configBase h name) conf) := by
  unfold Module.configure
  exact mapGet_mapSet_self _ _ _

/-- C15: level/name bijection and parse round trip.  The level table has eight
entries, its keys are the eight levels Fatal..Debug without repetition, its
names are pairwise distinct and consist of upper-case letters.  For every
order in which the table may be ranged over: a string whose upper-cased form
is the canonical name of the level L (every upper/lower-case variant of that
name) parses to (L, true); a string whose upper-cased form is none of the
eight names fails to parse, and configure then stores the threshold the
config had before. -/
theorem parseLevel_round_trip (h : Host) (order : List (Level × String))
    (horder : order.Perm levelStrings) :
    (levelStrings.length = 8 ∧ (levelStrings.map Prod.fst).Nodup ∧
      (levelStrings.map Prod.snd).Nodup ∧
      (∀ L : Level, (∃ e ∈ levelStrings, e.1 = L) ↔ (LevelFatal ≤ L ∧ L ≤ LevelDebug)) ∧
      (∀ e ∈ levelStrings, e.2.data.all Char.isUpper = true)) ∧
    (∀ (L : Level) (name s : String), (L, name) ∈ levelStrings →
      h.stringsToUpper s = name →
      parseLevel h.stringsToUpper order (.str s) = (L, true)) ∧
    (∀ s : String, (∀ e ∈ levelStrings, h.stringsToUpper s ≠ e.2) →
      parseLevel h.stringsToUpper order (.str s) = (LevelDebug, false) ∧
      ∀ (m : Module) (name : String) (conf : Map), mapIndex conf "level" = .str s →
        ∃ cfg, mapGet (m.configure h order name conf).configs name = some cfg ∧
          cfg.Level = (m.configBase h name).Level) := by
  refine ⟨⟨rfl, levelStrings_keys_nodup, levelStrings_names_nodup, mem_levelStrings_key,
    by decide⟩, ?_, ?_⟩
  · intro L name s hmem hs
    exact parseLevel_str_of_name _ order horder L name s hmem hs
  · intro s hs
    have hp := parseLevel_str_of_no_name h.stringsToUpper order horder s hs
    refine ⟨hp, ?_⟩
    intro m name conf hconf
    refine ⟨_, configure_stored h order m name conf, ?_⟩
    simp only [configureFields, hconf, hp]

/-- Witness of C15: with upper-casing of the ASCII letters, `iNfo` parses to
INFO and `verbose` does not parse, the table being ranged over in reverse. -/
theorem parseLevel_round_trip_witness :
    parseLevel asciiHost.stringsToUpper levelStrings.reverse (.str "iNfo") = (LevelInfo, true) ∧
    parseLevel asciiHost.stringsToUpper levelStrings.reverse (.str "verbose")
      = (LevelDebug, false) :=
  ⟨(parseLevel_round_trip asciiHost levelStrings.reverse (List.reverse_perm _)).2.1
      LevelInfo "INFO" "iNfo" (by decide) (by decide),
   ((parseLevel_round_trip asciiHost levelStrings.reverse (List.reverse_perm _)).2.2
      "verbose" (by decide)).1⟩

/-! ## C20 -/

/-- With no explicit level entries, the instance allows the levels up to the
clamped threshold. -/
theorem allow_derived_iff (order : List (Level × String)) (horder : order.Perm levelStrings)
    (cfg : Config) (hlevels : mapLen cfg.Levels = 0) (inst : Instance)
    (hinst : inst.Config = normalizeConfig order cfg) (L : Level) :
    inst.Allow L = true ↔ ((LevelFatal ≤ L ∧ L ≤ LevelDebug) ∧ L ≤ clampLevel cfg.Level) := by
  unfold Instance.Allow
  rw [hinst, normalizeConfig_Levels_derived order cfg hlevels]
  simp only [mapGet_derived, mem_order_key order horder, mapGet]
  constructor
  · intro h
    by_cases hc : (LevelFatal ≤ L ∧ L ≤ LevelDebug) ∧ L ≤ clampLevel cfg.Level
    · exact hc
    · rw [if_neg hc] at h
      simp at h
  · intro hc
    rw [if_pos hc]
    rfl

theorem clampLevel_of_outside (n : Level) (hn : n < LevelFatal ∨ LevelDebug < n) :
    clampLevel n = LevelDebug := by
  unfold clampLevel
  rw [if_pos hn]

/-- C20: an out-of-range numeric threshold becomes fully permissive.
`parseLevel` accepts every integer by direct cast; for every integer n outside
0..7 the raw setting `level: n` is stored by configure as the threshold,
whatever the threshold was before; and when neither the settings nor the
previous config give explicit level entries, normalizeConfig resets that
threshold to Debug and the instance allows exactly the eight levels. -/
theorem out_of_range_threshold_permissive (h : Host) (order orderN : List (Level × String))
    (horderN : orderN.Perm levelStrings) (m : Module) (name : String) (conf : Map) (n : Int)
    (hn : n < LevelFatal ∨ LevelDebug < n) (hconf : mapIndex conf "level" = .int n)
    (hlist : (parseLevels h.stringsToUpper order (mapIndex conf "levels")).2 = false)
    (hbase : mapLen (m.configBase h name).Levels = 0) :
    parseLevel h.stringsToUpper order (.int n) = (n, true) ∧
    ∃ cfg, mapGet (m.configure h order name conf).configs name = some cfg ∧
      cfg.Level = n ∧
      (normalizeConfig orderN cfg).Level = LevelDebug ∧
      ∀ inst : Instance, inst.Config = normalizeConfig orderN cfg →
        ∀ L : Level, inst.Allow L = true ↔ (LevelFatal ≤ L ∧ L ≤ LevelDebug) := by
  refine ⟨rfl, _, configure_stored h order m name conf, ?_, ?_, ?_⟩
  · simp only [configureFields, hconf, parseLevel]
  · rw [normalizeConfig_Level]
    simp only [configureFields, hconf, parseLevel]
    exact clampLevel_of_outside n hn
  · intro inst hinst L
    have hLs : (configureFields h order (m.configBase h name) conf).Levels
        = (m.configBase h name).Levels := by
      cases hp : parseLevels h.stringsToUpper order (mapIndex conf "levels") with
      | mk levels ok =>
        rw [hp] at hlist
        simp only at hlist
        subst hlist
        simp only [configureFields, hp]
    have hlen : mapLen (configureFields h order (m.configBase h name) conf).Levels = 0 := by
      rw [hLs]
      exact hbase
    rw [allow_derived_iff orderN horderN _ hlen inst hinst L]
    have hlv : (configureFields h order (m.configBase h name) conf).Level = n := by
      simp only [configureFields, hconf, parseLevel]
    rw [hlv, clampLevel_of_outside n hn]
    constructor
    · exact fun hc => hc.1
    · exact fun hc => ⟨hc, hc.2⟩

/-- Witness of C20: the settings `level: 99` and `level: -1` on the empty
engine. -/
theorem out_of_range_threshold_permissive_witness :
    (parseLevel asciiHost.stringsToUpper levelStrings (.int 99) = (99, true) ∧
      ∃ cfg, mapGet (emptyModule.configure asciiHost levelStrings "default"
          (some [("level", .int 99)])).configs "default" = some cfg ∧
        cfg.Level = 99 ∧
        (normalizeConfig levelStrings cfg).Level = LevelDebug ∧
        ∀ inst : Instance, inst.Config = normalizeConfig levelStrings cfg →
          ∀ L : Level, inst.Allow L = true ↔ (LevelFatal ≤ L ∧ L ≤ LevelDebug)) ∧
    (parseLevel asciiHost.stringsToUpper levelStrings (.int (-1)) = (-1, true) ∧
      ∃ cfg, mapGet (emptyModule.configure asciiHost levelStrings "default"
          (some [("level", .int (-1))])).configs "default" = some cfg ∧
        cfg.Level = -1 ∧
        (normalizeConfig levelStrings cfg).Level = LevelDebug ∧
        ∀ inst : Instance, inst.Config = normalizeConfig levelStrings cfg →
          ∀ L : Level, inst.Allow L = true ↔ (LevelFatal ≤ L ∧ L ≤ LevelDebug)) :=
  ⟨out_of_range_threshold_permissive asciiHost levelStrings levelStrings (List.Perm.refl _)
      emptyModule "default" (some [("level", .int 99)]) 99 (Or.inr (by decide)) rfl rfl rfl,
   out_of_range_threshold_permissive asciiHost levelStrings levelStrings (List.Perm.refl _)
      emptyModule "default" (some [("level", .int (-1))]) (-1) (Or.inl (by decide)) rfl rfl
      rfl⟩

/-! ## C13 -/

theorem mapGet_isSome_iff {κ ν : Type} [DecidableEq κ] (m : List (κ × ν)) (key : κ) :
    (mapGet m key).isSome = true ↔ key ∈ m.map Prod.fst := by
  induction m with
  | nil => simp [mapGet]
  | cons hd tl ih =>
    obtain ⟨a, b⟩ := hd
    by_cases h : a = key
    · simp [mapGet, h]
    · simp only [mapGet, h, if_false, List.map_cons, List.mem_cons, ih]
      constructor
      · exact fun hm => Or.inr hm
      · rintro (hm | hm)
        · exact absurd hm.symm h
        · exact hm

/-- The map `parseLevels` builds from the items, started from `acc`. -/
theorem mapGet_parseLevels_fold (toUpper : String → String) (order : List (Level × String))
    (items : List Any) (acc : List (Level × Bool)) (L : Level) :
    mapGet (items.foldl (parseLevelsStep toUpper order) acc) L
      = if ∃ item ∈ items, parseLevel toUpper order item = (L, true) then some true
        else mapGet acc L := by
  induction items generalizing acc with
  | nil => simp
  | cons hd tl ih =>
    rw [List.foldl_cons, ih]
    by_cases h1 : ∃ item ∈ tl, parseLevel toUpper order item = (L, true)
    · have h2 : ∃ item ∈ hd :: tl, parseLevel toUpper order item = (L, true) := by
        obtain ⟨item, hi, hp⟩ := h1
        exact ⟨item, List.mem_cons_of_mem _ hi, hp⟩
      rw [if_pos h1, if_pos h2]
    · rw [if_neg h1]
      cases hp : parseLevel toUpper order hd with
      | mk level ok =>
        cases ok with
        | true =>
          simp only [parseLevelsStep, hp]
          rw [mapGet_mapSet]
          by_cases h3 : level = L
          · subst h3
            rw [if_pos rfl, if_pos ⟨hd, List.mem_cons_self _ _, hp⟩]
          · have h2 : ¬ ∃ item ∈ hd :: tl, parseLevel toUpper order item = (L, true) := by
              rintro ⟨item, hi, hq⟩
              rcases List.mem_cons.1 hi with rfl | hi
              · rw [hp] at hq
                exact h3 (Prod.mk.inj hq).1
              · exact h1 ⟨item, hi, hq⟩
            rw [if_neg h3, if_neg h2]
        | false =>
          simp only [parseLevelsStep, hp]
          have h2 : ¬ ∃ item ∈ hd :: tl, parseLevel toUpper order item = (L, true) := by
            rintro ⟨item, hi, hq⟩
            rcases List.mem_cons.1 hi with rfl | hi
            · rw [hp] at hq
              exact absurd (Prod.mk.inj hq).2 (by decide)
            · exact h1 ⟨item, hi, hq⟩
          rw [if_neg h2]

/-- The items of a settings value that `parseLevels` looks at. -/
theorem parseLevels_eq (toUpper : String → String) (order : List (Level × String))
    (value : Any) :
    ∃ items : List Any,
      (value = .list items ∨ (∃ v, value = .strs v ∧ items = v.map Any.str) ∨
        ((∀ v, value ≠ .list v) ∧ (∀ v, value ≠ .strs v) ∧ items = [])) ∧
      parseLevels toUpper order value
        = (if (items.foldl (parseLevelsStep toUpper order) []).length = 0 then (none, false)
           else (some (items.foldl (parseLevelsStep toUpper order) []), true)) := by
  cases value with
  | list v => exact ⟨v, Or.inl rfl, rfl⟩
  | strs v =>
    refine ⟨v.map Any.str, Or.inr (Or.inl ⟨v, rfl, rfl⟩), ?_⟩
    simp only [parseLevels, List.foldl_map]
  | null => exact ⟨[], Or.inr (Or.inr ⟨by simp, by simp, rfl⟩), rfl⟩
  | bool b => exact ⟨[], Or.inr (Or.inr ⟨by simp, by simp, rfl⟩), rfl⟩
  | int n => exact ⟨[], Or.inr (Or.inr ⟨by simp, by simp, rfl⟩), rfl⟩
  | int64 n => exact ⟨[], Or.inr (Or.inr ⟨by simp, by simp, rfl⟩), rfl⟩
  | float64 q => exact ⟨[], Or.inr (Or.inr ⟨by simp, by simp, rfl⟩), rfl⟩
  | str t => exact ⟨[], Or.inr (Or.inr ⟨by simp, by simp, rfl⟩), rfl⟩
  | duration d => exact ⟨[], Or.inr (Or.inr ⟨by simp, by simp, rfl⟩), rfl⟩
  | map kv => exact ⟨[], Or.inr (Or.inr ⟨by simp, by simp, rfl⟩), rfl⟩
  | other tag => exact ⟨[], Or.inr (Or.inr ⟨by simp, by simp, rfl⟩), rfl⟩

/-- A map built by `parseLevels` is not empty and holds `true` under every key. -/
theorem parseLevels_some (toUpper : String → String) (order : List (Level × String))
    (value : Any) (S : List (Level × Bool))
    (hS : parseLevels toUpper order value = (some S, true)) :
    0 < S.length ∧ ∀ L : Level, mapGet S L = some true ↔ L ∈ S.map Prod.fst := by
  obtain ⟨items, -, hp⟩ := parseLevels_eq toUpper order value
  rw [hp] at hS
  by_cases hlen : (items.foldl (parseLevelsStep toUpper order) []).length = 0
  · rw [if_pos hlen] at hS
    exact absurd (Prod.mk.inj hS).2 (by decide)
  · rw [if_neg hlen] at hS
    have hSeq : items.foldl (parseLevelsStep toUpper order) [] = S :=
      Option.some.inj (Prod.mk.inj hS).1
    refine ⟨by rw [← hSeq]; exact Nat.pos_of_ne_zero hlen, ?_⟩
    intro L
    rw [← mapGet_isSome_iff, ← hSeq, mapGet_parseLevels_fold]
    by_cases hex : ∃ item ∈ items, parseLevel toUpper order item = (L, true)
    · simp [hex]
    · simp [hex, mapGet]

theorem configBase_of_new (h : Host) (m : Module) (name : String)
    (hnew : mapGet m.configs name = none) : m.configBase h name = defaultConfig h := by
  unfold Module.configBase
  rw [hnew]

theorem configureFields_Levels (h : Host) (order : List (Level × String)) (cfg : Config)
    (conf : Map) :
    (configureFields h order cfg conf).Levels
      = if (parseLevels h.stringsToUpper order (mapIndex conf "levels")).2 = true
          then (parseLevels h.stringsToUpper order (mapIndex conf "levels")).1
        else cfg.Levels := by
  cases hp : parseLevels h.stringsToUpper order (mapIndex conf "levels") with
  | mk levels ok =>
    cases ok <;> simp [configureFields, hp]

/-- An instance whose explicit level map is not empty allows what the map
holds `true` for. -/
theorem allow_explicit (order : List (Level × String)) (cfg : Config) (S : List (Level × Bool))
    (hS : cfg.Levels = some S) (hlen : 0 < S.length) (inst : Instance)
    (hinst : inst.Config = normalizeConfig order cfg) (L : Level) :
    inst.Allow L = true ↔ mapGet S L = some true := by
  unfold Instance.Allow
  rw [hinst, normalizeConfig_Levels_explicit order cfg (by rw [hS]; exact hlen), hS]
  dsimp only
  cases hg : mapGet S L with
  | none => simp
  | some b => simp

/-- C13: an explicit level list replaces the threshold.  For every settings
map, configured on a name that has no config yet, and whatever its `level`
value is: when its `levels` value parses to the non-empty map S, the config
stored has S as level map and an instance with the normalised config allows L
exactly when L is a key of S; when `parseLevels` answers false (the value is
absent, is no list, or no item of it parses), the instance allows exactly the
levels among the eight that are at most the (clamped) threshold stored.  For a
list value the keys of S are the levels its items parse to. -/
theorem explicit_levels_replace_threshold (h : Host) (order orderN : List (Level × String))
    (horderN : orderN.Perm levelStrings) (m : Module) (name : String) (conf : Map)
    (hnew : mapGet m.configs name = none) :
    ∃ cfg, mapGet (m.configure h order name conf).configs name = some cfg ∧
      (∀ S, parseLevels h.stringsToUpper order (mapIndex conf "levels") = (some S, true) →
        0 < S.length ∧ cfg.Levels = some S ∧
        ∀ inst : Instance, inst.Config = normalizeConfig orderN cfg →
          ∀ L : Level, inst.Allow L = true ↔ L ∈ S.map Prod.fst) ∧
      ((parseLevels h.stringsToUpper order (mapIndex conf "levels")).2 = false →
        ∀ inst : Instance, inst.Config = normalizeConfig orderN cfg →
          ∀ L : Level, inst.Allow L = true ↔
            ((LevelFatal ≤ L ∧ L ≤ LevelDebug) ∧ L ≤ clampLevel cfg.Level)) ∧
      (∀ items S, mapIndex conf "levels" = .list items →
        parseLevels h.stringsToUpper order (.list items) = (some S, true) →
        ∀ L : Level, L ∈ S.map Prod.fst ↔
          ∃ item ∈ items, parseLevel h.stringsToUpper order item = (L, true)) := by
  refine ⟨_, configure_stored h order m name conf, ?_, ?_, ?_⟩
  · intro S hS
    obtain ⟨hlen, hkeys⟩ := parseLevels_some _ _ _ S hS
    have hLs : (configureFields h order (m.configBase h name) conf).Levels = some S := by
      rw [configureFields_Levels, hS]
      rfl
    refine ⟨hlen, hLs, ?_⟩
    intro inst hinst L
    rw [allow_explicit orderN _ S hLs hlen inst hinst L, hkeys]
  · intro hfalse inst hinst L
    have hLs : (configureFields h order (m.configBase h name) conf).Levels = none := by
      rw [configureFields_Levels, hfalse, configBase_of_new h m name hnew]
      rfl
    exact allow_derived_iff orderN horderN _ (by rw [hLs]; rfl) inst hinst L
  · intro items S _ hS L
    have hfold : items.foldl (parseLevelsStep h.stringsToUpper order) [] = S := by
      unfold parseLevels at hS
      dsimp only at hS
      split_ifs at hS with hlen
      · exact absurd (Prod.mk.inj hS).2 (by decide)
      · exact Option.some.inj (Prod.mk.inj hS).1
    rw [← mapGet_isSome_iff, ← hfold, mapGet_parseLevels_fold]
    by_cases hex : ∃ item ∈ items, parseLevel h.stringsToUpper order item = (L, true)
    · simp [hex]
    · simp [hex, mapGet]

/-- Witness of C13: the settings `level: "ERROR", levels: ["debug", "INFO"]` on
the empty engine give an instance that allows DEBUG and INFO and not ERROR. -/
theorem explicit_levels_replace_threshold_witness :
    ∃ cfg, mapGet (emptyModule.configure asciiHost levelStrings "default"
        (some [("level", .str "ERROR"), ("levels", .strs ["debug", "INFO"])])).configs
          "default" = some cfg ∧
      cfg.Level = LevelError ∧ cfg.Levels = some [(LevelDebug, true), (LevelInfo, true)] ∧
      (freshInstance "default" (normalizeConfig levelStrings cfg)).Allow LevelDebug = true ∧
      (freshInstance "default" (normalizeConfig levelStrings cfg)).Allow LevelInfo = true ∧
      (freshInstance "default" (normalizeConfig levelStrings cfg)).Allow LevelError = false := by
  obtain ⟨cfg, hcfg, hS, -, -⟩ := explicit_levels_replace_threshold asciiHost levelStrings
    levelStrings (List.Perm.refl _) emptyModule "default"
    (some [("level", .str "ERROR"), ("levels", .strs ["debug", "INFO"])]) rfl
  have hstored := configure_stored asciiHost levelStrings emptyModule "default"
    (some [("level", .str "ERROR"), ("levels", .strs ["debug", "INFO"])])
  rw [hstored] at hcfg
  have hc := Option.some.inj hcfg
  obtain ⟨-, hLs, hallow⟩ := hS [(LevelDebug, true), (LevelInfo, true)] (by decide)
  refine ⟨cfg, by rw [hstored, hc], by rw [← hc]; decide, hLs, ?_, ?_, ?_⟩
  · exact (hallow _ rfl LevelDebug).2 (by decide)
  · exact (hallow _ rfl LevelInfo).2 (by decide)
  · cases hA : (freshInstance "default" (normalizeConfig levelStrings cfg)).Allow LevelError with
    | false => rfl
    | true => exact absurd ((hallow _ rfl LevelError).1 hA) (by decide)

/-! ## C14 -/

theorem RegisterConfig_of_opened (h : Host) (m : Module) (hopened : m.opened = true)
    (name : String) (cfg : Config) : m.RegisterConfig h name cfg = m := by
  simp only [Module.RegisterConfig, hopened, if_true]

/-- C16: the config registry is frozen while the engine is opened.  For every
engine state with opened = true and every argument, RegisterConfig,
RegisterConfigs, Config and Setup return the state unchanged: the config
registry, the instance registry, the flags and everything else. -/
theorem registry_frozen_while_opened (h : Host) (order : List (Level × String))
    (orders : String → List (Level × String)) (m : Module) (hopened : m.opened = true) :
    (∀ name cfg, m.RegisterConfig h name cfg = m) ∧
    (∀ configs, m.RegisterConfigs h configs = m) ∧
    (∀ global, m.Config h order global = m) ∧
    m.Setup h orders = m := by
  refine ⟨RegisterConfig_of_opened h m hopened, ?_, ?_, ?_⟩
  · intro configs
    unfold Module.RegisterConfigs
    induction configs with
    | nil => rfl
    | cons p rest ih =>
      rw [List.foldl_cons, RegisterConfig_of_opened h m hopened]
      exact ih
  · intro global
    simp only [Module.Config, hopened, if_true]
  · simp only [Module.Setup, hopened, if_true]

/-- Witness of C16: on the opened engine with the instance `default`, the four
operations change nothing. -/
theorem registry_frozen_while_opened_witness :
    openedModule.opened = true ∧
    openedModule.RegisterConfig asciiHost "audit" (thresholdConfig LevelError)
      = openedModule ∧
    openedModule.RegisterConfigs asciiHost
      [("audit", thresholdConfig LevelError), ("default", thresholdConfig LevelFatal)]
      = openedModule ∧
    openedModule.Config asciiHost levelStrings
      (some [("log", .map [("level", .str "ERROR")])]) = openedModule ∧
    openedModule.Setup asciiHost (fun _ => levelStrings) = openedModule :=
  ⟨rfl,
   (registry_frozen_while_opened asciiHost levelStrings (fun _ => levelStrings) openedModule
      rfl).1 _ _,
   (registry_frozen_while_opened asciiHost levelStrings (fun _ => levelStrings) openedModule
      rfl).2.1 _,
   (registry_frozen_while_opened asciiHost levelStrings (fun _ => levelStrings) openedModule
      rfl).2.2.1 _,
   (registry_frozen_while_opened asciiHost levelStrings (fun _ => levelStrings) openedModule
      rfl).2.2.2⟩

/-! ## C17 -/

theorem RegisterDriver_kept (h : Host) (m : Module) (name : String) (d x : Driver)
    (hov : h.Override = false)
    (hx : mapGet m.drivers (if name = "" then h.DEFAULT else name) = some x) :
    m.RegisterDriver h name (some d) = (m, none) := by
  simp only [Module.RegisterDriver, hov, hx, Bool.false_eq_true, if_false]

theorem RegisterDriver_added (h : Host) (m : Module) (name : String) (d : Driver)
    (hov : h.Override = false)
    (hx : mapGet m.drivers (if name = "" then h.DEFAULT else name) = none) :
    m.RegisterDriver h name (some d)
      = ({ m with drivers := mapSet m.drivers (if name = "" then h.DEFAULT else name) d },
          none) := by
  simp only [Module.RegisterDriver, hov, hx, Bool.false_eq_true, if_false]

theorem RegisterDriver_override (h : Host) (m : Module) (name : String) (d : Driver)
    (hov : h.Override = true) :
    m.RegisterDriver h name (some d)
      = ({ m with drivers := mapSet m.drivers (if name = "" then h.DEFAULT else name) d },
          none) := by
  simp only [Module.RegisterDriver, hov, if_true]

theorem RegisterConfig_kept (h : Host) (m : Module) (name : String) (c x : Config)
    (hopen : m.opened = false) (hov : h.Override = false)
    (hx : mapGet m.configs (if name = "" then h.DEFAULT else name) = some x) :
    m.RegisterConfig h name c = m := by
  simp only [Module.RegisterConfig, hopen, hov, hx, Bool.false_eq_true, if_false]

theorem RegisterConfig_added (h : Host) (m : Module) (name : String) (c : Config)
    (hopen : m.opened = false) (hov : h.Override = false)
    (hx : mapGet m.configs (if name = "" then h.DEFAULT else name) = none) :
    m.RegisterConfig h name c
      = { m with configs := mapSet m.configs (if name = "" then h.DEFAULT else name) c } := by
  simp only [Module.RegisterConfig, hopen, hov, hx, Bool.false_eq_true, if_false]

theorem RegisterConfig_override (h : Host) (m : Module) (name : String) (c : Config)
    (hopen : m.opened = false) (hov : h.Override = true) :
    m.RegisterConfig h name c
      = { m with configs := mapSet m.configs (if name = "" then h.DEFAULT else name) c } := by
  simp only [Module.RegisterConfig, hopen, hov, Bool.false_eq_true, if_false, if_true]

/-- C17: registration is first-writer-wins.  With the override policy
inactive, a second RegisterDriver under a name changes nothing after a first
one with a non-nil driver, and when the name was free the registry maps it to
the first driver; likewise for RegisterConfig on an engine that is not opened.
With the override policy active the registry maps the name to the driver (the
config) registered last.  An empty name stands for the default name.
Registering a nil driver panics and leaves the engine as it is. -/
theorem registration_first_writer_wins (h : Host) (m : Module) (name : String)
    (d1 d2 : Driver) (c1 c2 : Config) :
    (h.Override = false →
      ((m.RegisterDriver h name (some d1)).1.RegisterDriver h name (some d2)
          = ((m.RegisterDriver h name (some d1)).1, none) ∧
        (m.RegisterDriver h name (some d1)).2 = none ∧
        (mapGet m.drivers (if name = "" then h.DEFAULT else name) = none →
          mapGet ((m.RegisterDriver h name (some d1)).1.RegisterDriver h name (some d2)).1.drivers
            (if name = "" then h.DEFAULT else name) = some d1)) ∧
      (m.opened = false →
        (m.RegisterConfig h name c1).RegisterConfig h name c2 = m.RegisterConfig h name c1 ∧
        (mapGet m.configs (if name = "" then h.DEFAULT else name) = none →
          mapGet ((m.RegisterConfig h name c1).RegisterConfig h name c2).configs
            (if name = "" then h.DEFAULT else name) = some c1))) ∧
    (h.Override = true →
      (m.RegisterDriver h name (some d1)).2 = none ∧
      ((m.RegisterDriver h name (some d1)).1.RegisterDriver h name (some d2)).2 = none ∧
      mapGet ((m.RegisterDriver h name (some d1)).1.RegisterDriver h name (some d2)).1.drivers
        (if name = "" then h.DEFAULT else name) = some d2 ∧
      (m.opened = false →
        mapGet ((m.RegisterConfig h name c1).RegisterConfig h name c2).configs
          (if name = "" then h.DEFAULT else name) = some c2)) ∧
    (m.RegisterDriver h "" (some d1) = m.RegisterDriver h h.DEFAULT (some d1) ∧
      m.RegisterConfig h "" c1 = m.RegisterConfig h h.DEFAULT c1) ∧
    m.RegisterDriver h name none = (m, some "invalid log driver") := by
  refine ⟨?_, ?_, ⟨?_, ?_⟩, rfl⟩
  · intro hov
    constructor
    · cases hx : mapGet m.drivers (if name = "" then h.DEFAULT else name) with
      | some x =>
        rw [RegisterDriver_kept h m name d1 x hov hx]
        exact ⟨RegisterDriver_kept h m name d2 x hov hx, rfl, fun hn => absurd hn (by simp)⟩
      | none =>
        rw [RegisterDriver_added h m name d1 hov hx]
        have hsecond := RegisterDriver_kept h
          { m with drivers := mapSet m.drivers (if name = "" then h.DEFAULT else name) d1 }
          name d2 d1 hov (mapGet_mapSet_self _ _ _)
        have hnow := mapGet_mapSet_self m.drivers (if name = "" then h.DEFAULT else name) d1
        refine ⟨hsecond, rfl, fun _ => ?_⟩
        rw [hsecond]
        exact hnow
    · intro hopen
      cases hx : mapGet m.configs (if name = "" then h.DEFAULT else name) with
      | some x =>
        rw [RegisterConfig_kept h m name c1 x hopen hov hx]
        exact ⟨RegisterConfig_kept h m name c2 x hopen hov hx, fun hn => absurd hn (by simp)⟩
      | none =>
        rw [RegisterConfig_added h m name c1 hopen hov hx]
        have hsecond := RegisterConfig_kept h
          { m with configs := mapSet m.configs (if name = "" then h.DEFAULT else name) c1 }
          name c2 c1 hopen hov (mapGet_mapSet_self _ _ _)
        have hnow := mapGet_mapSet_self m.configs (if name = "" then h.DEFAULT else name) c1
        refine ⟨hsecond, fun _ => ?_⟩
        rw [hsecond]
        exact hnow
  · intro hov
    rw [RegisterDriver_override h m name d1 hov]
    refine ⟨rfl, ?_, ?_, ?_⟩
    · rw [RegisterDriver_override h _ name d2 hov]
    · rw [RegisterDriver_override h _ name d2 hov]
      exact mapGet_mapSet_self _ _ _
    · intro hopen
      rw [RegisterConfig_override h m name c1 hopen hov,
        RegisterConfig_override h
          { m with configs := mapSet m.configs (if name = "" then h.DEFAULT else name) c1 }
          name c2 hopen hov]
      exact mapGet_mapSet_self _ _ _
  · simp only [Module.RegisterDriver, if_true]
    simp
  · simp only [Module.RegisterConfig, if_true]
    simp

/-- Witness of C17: the engine with the default driver registered, the
override policy inactive: registering another driver under `default` keeps the
first one, under the free name `file` the first of two wins, and a nil driver
panics. -/
theorem registration_first_writer_wins_witness :
    asciiHost.Override = false ∧
    (registered []).RegisterDriver asciiHost "" (some brokenDriver) = (registered [], none) ∧
    (mapGet (registered []).drivers "file" = none →
      mapGet (((registered []).RegisterDriver asciiHost "file" (some brokenDriver)).1.RegisterDriver
          asciiHost "file" (some defaultDriver)).1.drivers "file" = some brokenDriver) ∧
    (registered []).RegisterDriver asciiHost "file" none
      = (registered [], some "invalid log driver") :=
  ⟨rfl, rfl,
   ((registration_first_writer_wins asciiHost (registered []) "file" brokenDriver defaultDriver
      (thresholdConfig LevelInfo) (thresholdConfig LevelError)).1 rfl).1.2.2,
   (registration_first_writer_wins asciiHost (registered []) "file" brokenDriver defaultDriver
      (thresholdConfig LevelInfo) (thresholdConfig LevelError)).2.2.2⟩

/-! ## C12 -/

/-- The config the round-trip configuration leaves under the default name
after `Config` and `Setup`, on an engine with no config. -/
theorem roundTrip_config (h : Host) (order orderN : List (Level × String))
    (horder : order.Perm levelStrings) (hupper : h.stringsToUpper "INFO" = "INFO")
    (m : Module) (hopened : m.opened = false) (hconfigs : m.configs = []) :
    mapGet ((m.Config h order roundTripGlobal).Setup h (fun _ => orderN)).configs h.DEFAULT
      = some (normalizeConfig orderN
          { defaultConfig h with
            Driver := "default", Level := LevelInfo, Format := "%level%: %body%" }) := by
  have hparse : parseLevel h.stringsToUpper order (.str "INFO") = (LevelInfo, true) :=
    parseLevel_str_of_name _ order horder LevelInfo "INFO" "INFO" (by decide) hupper
  have hloop : configLoop h order m []
      [("driver", .str "default"), ("level", .str "INFO"), ("format", .str "%level%: %body%")]
      = (m, [("driver", .str "default"), ("level", .str "INFO"),
          ("format", .str "%level%: %body%")]) := rfl
  have hbase : m.configBase h h.DEFAULT = defaultConfig h :=
    configBase_of_new h m h.DEFAULT (by rw [hconfigs]; rfl)
  have hfields : configureFields h order (defaultConfig h)
      (some [("driver", .str "default"), ("level", .str "INFO"),
        ("format", .str "%level%: %body%")])
      = { defaultConfig h with
          Driver := "default", Level := LevelInfo, Format := "%level%: %body%" } := by
    have hl : mapIndex (some [("driver", Any.str "default"), ("level", Any.str "INFO"),
        ("format", Any.str "%level%: %body%")]) "level" = .str "INFO" := rfl
    have hd : mapIndex (some [("driver", Any.str "default"), ("level", Any.str "INFO"),
        ("format", Any.str "%level%: %body%")]) "driver" = .str "default" := rfl
    have hf : mapIndex (some [("driver", Any.str "default"), ("level", Any.str "INFO"),
        ("format", Any.str "%level%: %body%")]) "format" = .str "%level%: %body%" := rfl
    have hls : mapIndex (some [("driver", Any.str "default"), ("level", Any.str "INFO"),
        ("format", Any.str "%level%: %body%")]) "levels" = .null := rfl
    have hj : mapIndex (some [("driver", Any.str "default"), ("level", Any.str "INFO"),
        ("format", Any.str "%level%: %body%")]) "json" = .null := rfl
    have hfl : mapIndex (some [("driver", Any.str "default"), ("level", Any.str "INFO"),
        ("format", Any.str "%level%: %body%")]) "flag" = .null := rfl
    have hb : mapIndex (some [("driver", Any.str "default"), ("level", Any.str "INFO"),
        ("format", Any.str "%level%: %body%")]) "buffer" = .null := rfl
    have ht : mapIndex (some [("driver", Any.str "default"), ("level", Any.str "INFO"),
        ("format", Any.str "%level%: %body%")]) "timeout" = .null := rfl
    have hs : mapIndex (some [("driver", Any.str "default"), ("level", Any.str "INFO"),
        ("format", Any.str "%level%: %body%")]) "setting" = .null := rfl
    unfold configureFields
    rw [hl, hd, hf, hls, hj, hfl, hb, ht, hs, hparse]
    rfl
  have hConfig : m.Config h order roundTripGlobal
      = { m with configs := [(h.DEFAULT,
          { defaultConfig h with
            Driver := "default", Level := LevelInfo, Format := "%level%: %body%" })] } := by
    have h1 : m.Config h order roundTripGlobal
        = m.configure h order h.DEFAULT
            (some [("driver", .str "default"), ("level", .str "INFO"),
              ("format", .str "%level%: %body%")]) := by
      simp only [Module.Config, hopened, roundTripGlobal, mapIndex, mapGet, castMap,
        Bool.false_eq_true, if_false, if_true, Option.getD_some, hloop]
      rfl
    rw [h1]
    unfold Module.configure
    rw [hbase, hfields, hconfigs]
    rfl
  rw [hConfig]
  simp [Module.Setup, hopened, mapGet]

theorem normalizeConfig_Json (order : List (Level × String)) (cfg : Config) :
    (normalizeConfig order cfg).Json = cfg.Json := by
  unfold normalizeConfig normalizeLevels
  dsimp only
  split_ifs <;> rfl

/-- The template `%level%: %body%` on an INFO entry with the body `hello world`. -/
theorem Format_level_body (timeFormat : Time → String)
    (jsonMarshal : List (String × Any) → String) (inst : Instance) (now : Time)
    (hjson : inst.Config.Json = false) (hformat : inst.Config.Format = "%level%: %body%") :
    inst.Format timeFormat jsonMarshal { Time := now, Level := LevelInfo, Body := "hello world" }
      = "INFO: hello world" := by
  unfold Instance.Format
  simp only [hjson, hformat, Bool.false_eq_true, if_false]
  rfl

/-- A `Write` on an engine that is not started reaches the connection of an
instance exactly when the instance allows the level of the entry. -/
theorem received_Write_not_started (m : Module) (hs : m.started = false) (now : Time)
    (entry : Log) (name : String) :
    (m.Write now entry).received name
      = m.received name ++ (if m.allows name entry.Level then [stamp now entry] else []) := by
  have h : m.Write now entry = m.dispatch [stamp now entry] := by
    simp only [Module.Write, hs]
  rw [h, received_dispatch]
  simp only [List.filter, stamp_Level]
  cases m.allows name entry.Level <;> rfl

/-- C12: the round-trip scenario.  On an engine that is not opened and has no
config, loading the configuration
`driver: "default", level: "INFO", format: "%level%: %body%"` (Config) and
normalising (Setup) leaves under the default name a config with the driver
`default`, the threshold INFO and that template.  With a `strings.ToUpper`
that leaves `INFO` as it is and a `fmt.Sprintf` that formats `hello %s` with
`world` to `hello world`: the arguments of `Info("hello %s", "world")` render
to the body `hello world`; every instance holding that config allows INFO,
does not allow DEBUG, and formats the INFO entry with that body to exactly
`INFO: hello world`; and on an engine that is not started, `Info` passes that
entry to the connection of such an instance while `Debug`, whatever its
arguments, passes nothing to it. -/
theorem round_trip_scenario (h : Host) (order orderN : List (Level × String))
    (horder : order.Perm levelStrings) (horderN : orderN.Perm levelStrings)
    (hupper : h.stringsToUpper "INFO" = "INFO")
    (sprintf : String → List Any → String) (sprint : Any → String)
    (hsprintf : sprintf "hello %s" [.str "world"] = "hello world")
    (timeFormat : Time → String) (jsonMarshal : List (String × Any) → String)
    (m : Module) (hopened : m.opened = false) (hconfigs : m.configs = []) (now : Time) :
    ∃ cfg, mapGet ((m.Config h order roundTripGlobal).Setup h (fun _ => orderN)).configs
        h.DEFAULT = some cfg ∧
      cfg.Driver = "default" ∧ cfg.Level = LevelInfo ∧ cfg.Format = "%level%: %body%" ∧
      Module.parseBody sprintf sprint [.str "hello %s", .str "world"] = "hello world" ∧
      (∀ inst : Instance, inst.Config = cfg →
        inst.Allow LevelInfo = true ∧ inst.Allow LevelDebug = false ∧
        inst.Format timeFormat jsonMarshal
            { Time := now, Level := LevelInfo, Body := "hello world" }
          = "INFO: hello world") ∧
      (∀ (e : Module) (name : String) (inst : Instance), e.started = false →
        mapGet e.instances name = some inst → inst.Config = cfg →
        (Info e sprintf sprint now [.str "hello %s", .str "world"]).received name
          = e.received name
            ++ [stamp now { Time := now, Level := LevelInfo, Body := "hello world" }] ∧
        ∀ args, (Debug e sprintf sprint now args).received name = e.received name) := by
  have hbody : Module.parseBody sprintf sprint [.str "hello %s", .str "world"]
      = "hello world" := by
    rw [← hsprintf]
    rfl
  have hallow : ∀ inst : Instance, inst.Config = normalizeConfig orderN
        { defaultConfig h with
          Driver := "default", Level := LevelInfo, Format := "%level%: %body%" } →
      inst.Allow LevelInfo = true ∧ inst.Allow LevelDebug = false := by
    intro inst hinst
    have hiff := allow_derived_iff orderN horderN
      { defaultConfig h with
        Driver := "default", Level := LevelInfo, Format := "%level%: %body%" } rfl inst hinst
    have hinfo : (LevelFatal ≤ LevelInfo ∧ LevelInfo ≤ LevelDebug) ∧
        LevelInfo ≤ clampLevel LevelInfo := by decide
    have hdebug : ¬ ((LevelFatal ≤ LevelDebug ∧ LevelDebug ≤ LevelDebug) ∧
        LevelDebug ≤ clampLevel LevelInfo) := by decide
    refine ⟨(hiff LevelInfo).2 hinfo, ?_⟩
    cases hA : inst.Allow LevelDebug with
    | false => rfl
    | true => exact absurd ((hiff LevelDebug).1 hA) hdebug
  refine ⟨_, roundTrip_config h order orderN horder hupper m hopened hconfigs, ?_, ?_, ?_,
    hbody, ?_, ?_⟩
  · rw [normalizeConfig_Driver]
    rfl
  · rw [normalizeConfig_Level]
    rfl
  · rw [normalizeConfig_Format]
    rfl
  · intro inst hinst
    refine ⟨(hallow inst hinst).1, (hallow inst hinst).2, ?_⟩
    apply Format_level_body
    · rw [hinst, normalizeConfig_Json]
      rfl
    · rw [hinst, normalizeConfig_Format]
      rfl
  · intro e name inst hs hget hinst
    have hal : ∀ level, e.allows name level = inst.Allow level := by
      intro level
      unfold Module.allows
      rw [hget]
    constructor
    · unfold Info Module.Logging
      rw [hbody, received_Write_not_started e hs, hal, (hallow inst hinst).1]
      rfl
    · intro args
      unfold Debug Module.Logging
      rw [received_Write_not_started e hs, hal, (hallow inst hinst).2]
      simp

/-- Witness of C12: the engine with the default driver registered and no
config, upper-casing of the ASCII letters, and the `%s` fragment of
`fmt.Sprintf`. -/
theorem round_trip_scenario_witness :
    asciiHost.stringsToUpper "INFO" = "INFO" ∧
    sprintfOfStrings "hello %s" [.str "world"] = "hello world" ∧
    ∃ cfg, mapGet (((registered []).Config asciiHost levelStrings roundTripGlobal).Setup
        asciiHost (fun _ => levelStrings)).configs "default" = some cfg ∧
      Module.parseBody sprintfOfStrings (fun _ => "") [.str "hello %s", .str "world"]
        = "hello world" ∧
      (freshInstance "default" cfg).Allow LevelInfo = true ∧
      (freshInstance "default" cfg).Allow LevelDebug = false ∧
      (freshInstance "default" cfg).Format (fun _ => "2023-11-14 22:13:20.000") (fun _ => "")
          { Time := ⟨1700000000, 0⟩, Level := LevelInfo, Body := "hello world" }
        = "INFO: hello world" := by
  obtain ⟨cfg, h1, -, -, -, h5, h6, -⟩ := round_trip_scenario asciiHost levelStrings
    levelStrings (List.Perm.refl _) (List.Perm.refl _) (by decide) sprintfOfStrings
    (fun _ => "") (by decide) (fun _ => "2023-11-14 22:13:20.000") (fun _ => "")
    (registered []) rfl rfl ⟨1700000000, 0⟩
  exact ⟨by decide, by decide, cfg, h1, h5, (h6 _ rfl).1, (h6 _ rfl).2.1, (h6 _ rfl).2.2⟩

/-! ## C18 -/

theorem batch_flush (m : Module) : m.flush.batch = [] := by
  unfold Module.batch
  rw [flush_worker]
  cases m.worker <;> rfl

/-- What a tick does, in terms of the call it makes. -/
theorem tick_call (m : Module) :
    (m.flushCall = none → m.batch = [] ∧ m.tick = m) ∧
    (∀ b, m.flushCall = some b → b = m.batch ∧ b ≠ [] ∧
      m.tick.instances = (m.dispatch b).instances ∧ m.tick.stderr = (m.dispatch b).stderr) := by
  unfold Module.flushCall Module.batch Module.tick Module.flush
  cases hw : m.worker with
  | none => simp
  | some w =>
    by_cases hb : w.batch.length = 0
    · have : w.batch = [] := by simpa using hb
      simp [hb, this]
    · have hne : w.batch ≠ [] := by
        intro h
        exact hb (by simp [h])
      simp only [hb, if_false]
      refine ⟨fun h => absurd h (by simp), ?_⟩
      intro b hb2
      obtain rfl : w.batch = b := Option.some.inj hb2
      exact ⟨rfl, hne, rfl, rfl⟩

/-- What a receive does, in terms of the entry it takes and the call it makes. -/
theorem recv_call (m : Module) :
    (m.recvEntry = none → m.recv = m) ∧
    (∀ entry, m.recvEntry = some entry →
      ((m.batch ++ [entry]).length ≥ batchCap →
        m.recv.batch = [] ∧
        m.recv.instances = (m.dispatch (m.batch ++ [entry])).instances ∧
        m.recv.stderr = (m.dispatch (m.batch ++ [entry])).stderr) ∧
      (¬ (m.batch ++ [entry]).length ≥ batchCap →
        m.recv.batch = m.batch ++ [entry] ∧ m.recv.instances = m.instances ∧
        m.recv.stderr = m.stderr)) := by
  cases hw : m.worker with
  | none =>
    refine ⟨fun _ => by simp only [Module.recv, hw], ?_⟩
    intro entry he
    simp [Module.recvEntry, hw] at he
  | some w =>
    cases hq : m.queue with
    | none =>
      refine ⟨fun _ => by simp only [Module.recv, hw, hq], ?_⟩
      intro entry he
      simp [Module.recvEntry, hw, hq] at he
    | some q =>
      cases hb : q.buf with
      | nil =>
        refine ⟨fun _ => by simp only [Module.recv, hw, hq, hb], ?_⟩
        intro entry he
        simp [Module.recvEntry, hw, hq, hb] at he
      | cons head rest =>
        refine ⟨fun he => by simp [Module.recvEntry, hw, hq, hb] at he, ?_⟩
        intro entry he
        have hentry : head = entry := by
          simpa [Module.recvEntry, hw, hq, hb] using he
        subst hentry
        have hbatch : m.batch = w.batch := by
          unfold Module.batch
          rw [hw]
        rw [hbatch]
        constructor
        · intro hfull
          have hrecv : m.recv
              = ({ m with queue := some { q with buf := rest }
                          worker := some { w with batch := w.batch ++ [head] } } :
                  Module).flush := by
            simp only [Module.recv, hw, hq, hb, hfull, if_true]
          have hne : ¬ (w.batch ++ [head]).length = 0 := by simp
          rw [hrecv]
          refine ⟨batch_flush _, ?_, ?_⟩
          · simp only [Module.flush, hne, if_false]
            rfl
          · simp only [Module.flush, hne, if_false]
            rfl
        · intro hroom
          have hrecv : m.recv
              = { m with queue := some { q with buf := rest }
                         worker := some { w with batch := w.batch ++ [head] } } := by
            simp only [Module.recv, hw, hq, hb, hroom, if_false]
          rw [hrecv]
          exact ⟨rfl, rfl, rfl⟩

theorem batch_Write (m : Module) (now : Time) (entry : Log) :
    (m.Write now entry).batch = m.batch := by
  rcases Write_cases m now entry with ⟨-, q, -, h⟩ | ⟨-, h⟩
  · rw [h]
    rfl
  · rw [h]
    rfl

/-- One step keeps the bound on the batch, hands over a batch that is not
empty and not longer than the capacity, and loses no entry. -/
theorem worker_step (m : Module) (ev : Event) (hb : m.batch.length < batchCap) :
    (m.step ev).batch.length < batchCap ∧
    (∀ b, m.workerCall ev = some b → b ≠ [] ∧ b.length ≤ batchCap) ∧
    (m.workerCall ev).toList.flatten ++ (m.step ev).batch
      = m.batch ++ (m.takenBy ev).toList := by
  cases ev with
  | write now entry =>
    simp only [Module.step, Module.workerCall, Module.takenBy, batch_Write]
    exact ⟨hb, fun b h => absurd h (by simp), by simp⟩
  | tick =>
    obtain ⟨h1, h2⟩ := tick_call m
    simp only [Module.step, Module.workerCall, Module.takenBy]
    have hbt : m.tick.batch = [] := batch_flush m
    rw [hbt]
    refine ⟨by decide, ?_, ?_⟩
    · intro b hcall
      obtain ⟨hbm, hne, -, -⟩ := h2 b hcall
      exact ⟨hne, by rw [hbm]; exact le_of_lt hb⟩
    · cases hcall : m.flushCall with
      | none => simp [(h1 hcall).1]
      | some b => simp [(h2 b hcall).1]
  | recv =>
    obtain ⟨h1, h2⟩ := recv_call m
    simp only [Module.step, Module.workerCall, Module.takenBy]
    cases he : m.recvEntry with
    | none =>
      rw [h1 he]
      exact ⟨hb, fun b h => absurd h (by simp), by simp⟩
    | some entry =>
      obtain ⟨hfull, hroom⟩ := h2 entry he
      by_cases hc : (m.batch ++ [entry]).length ≥ batchCap
      · obtain ⟨hbatch, -, -⟩ := hfull hc
        simp only [hc, if_true, hbatch]
        refine ⟨by decide, ?_, by simp⟩
        intro b hcall
        obtain rfl : m.batch ++ [entry] = b := Option.some.inj hcall
        refine ⟨by simp, ?_⟩
        simp only [List.length_append, List.length_singleton]
        exact hb
      · obtain ⟨hbatch, -, -⟩ := hroom hc
        simp only [hc, if_false, hbatch]
        exact ⟨not_le.1 hc, fun b h => absurd h (by simp), by simp⟩

/-- `Stop` in a state where the worker holds nothing: no call of `dispatch`. -/
theorem Stop_nothing_pending (m : Module) (hlive : m.live = true) (hp : m.pending = []) :
    ∃ m1, m.Stop = some m1 ∧ m1.instances = m.instances ∧ m1.stderr = m.stderr := by
  obtain ⟨hs, hc, hw⟩ := (live_iff m).1 hlive
  cases hc1 : m.stopChan with
  | none => simp [hc1] at hc
  | some c =>
    cases hw1 : m.worker with
    | none => simp [hw1] at hw
    | some w =>
      unfold Module.pending at hp
      rw [hw1] at hp
      obtain ⟨hbatch, hbuf⟩ := List.append_eq_nil.1 hp
      have hdrain : drain w.batch (match m.queue with
          | some q => q.buf
          | none => []) = [] := by
        rw [drain_eq, hbuf]
        simpa using hbatch
      obtain ⟨x, hx⟩ : ∃ x : Module, x =
          { m with
            started := false
            stopChan := some true
            queue := m.queue.map (fun q => { q with buf := [] })
            worker := some { w with batch := drain w.batch (match m.queue with
              | some q => q.buf
              | none => []) } } := ⟨_, rfl⟩
      have hstop : m.Stop = some { x.flush with worker := none, doneChan := some true } := by
        simp only [Module.Stop, hs, hc1, hw1, hx]
        rfl
      have hflush : x.flush = x := by
        rw [hx]
        simp only [Module.flush, hdrain, List.length_nil, if_true]
      refine ⟨_, hstop, ?_, ?_⟩
      · show x.flush.instances = m.instances
        rw [hflush, hx]
      · show x.flush.stderr = m.stderr
        rw [hflush, hx]

/-- The invariant of the worker along a trace. -/
theorem worker_run (m : Module) (hb : m.batch.length < batchCap) (events : List Event) :
    (m.run events).batch.length < batchCap ∧
    (∀ b ∈ m.dispatched events, b ≠ [] ∧ b.length ≤ batchCap) ∧
    (m.dispatched events).flatten ++ (m.run events).batch = m.batch ++ m.taken events := by
  induction events generalizing m with
  | nil =>
    refine ⟨hb, ?_, ?_⟩
    · intro b hmem
      simp [Module.dispatched] at hmem
    · simp [Module.dispatched, Module.taken, Module.run]
  | cons ev rest ih =>
    obtain ⟨s1, s2, s3⟩ := worker_step m ev hb
    obtain ⟨i1, i2, i3⟩ := ih (m.step ev) s1
    refine ⟨i1, ?_, ?_⟩
    · intro b hmem
      simp only [Module.dispatched, List.mem_append, Option.mem_toList, Option.mem_def] at hmem
      rcases hmem with hmem | hmem
      · exact s2 b hmem
      · exact i2 b hmem
    · show ((m.workerCall ev).toList ++ (m.step ev).dispatched rest).flatten
          ++ ((m.step ev).run rest).batch
        = m.batch ++ ((m.takenBy ev).toList ++ (m.step ev).taken rest)
      rw [List.flatten_append, List.append_assoc, i3, ← List.append_assoc, s3,
        List.append_assoc]

/-- C19: the batch bound of the worker.  The capacity of the batch is 256.
For every engine state whose pending batch holds fewer than 256 entries (as
after Start) and every trace of receive and tick steps of the worker, with
Write calls in between: the pending batch holds fewer than 256 entries at the
state reached; every batch the worker has handed to dispatch is non-empty and
has at most 256 entries; and the batches handed over, one after the other,
followed by the pending batch, are the entries the batch held at first
followed by the entries received from the queue.  Step by step: a receive that
finds no entry changes nothing; a receive that brings the batch to 256 entries
hands it to dispatch at once and leaves the batch empty, any other receive
only appends the entry; a tick with an empty batch changes nothing, and a tick
with a non-empty batch hands that batch to dispatch; Stop in a state where the
worker holds nothing dispatches nothing. -/
theorem worker_batch_bound (m : Module) (hb : m.batch.length < batchCap)
    (events : List Event) :
    batchCap = 256 ∧
    (m.run events).batch.length < batchCap ∧
    (∀ b ∈ m.dispatched events, b ≠ [] ∧ b.length ≤ batchCap) ∧
    (m.dispatched events).flatten ++ (m.run events).batch = m.batch ++ m.taken events ∧
    (∀ x : Module,
      (x.recvEntry = none → x.recv = x) ∧
      (∀ entry, x.recvEntry = some entry →
        ((x.batch ++ [entry]).length ≥ batchCap →
          x.recv.batch = [] ∧
          x.recv.instances = (x.dispatch (x.batch ++ [entry])).instances ∧
          x.recv.stderr = (x.dispatch (x.batch ++ [entry])).stderr) ∧
        (¬ (x.batch ++ [entry]).length ≥ batchCap →
          x.recv.batch = x.batch ++ [entry] ∧ x.recv.instances = x.instances ∧
          x.recv.stderr = x.stderr))) ∧
    (∀ x : Module,
      (x.flushCall = none → x.batch = [] ∧ x.tick = x) ∧
      (∀ b, x.flushCall = some b → b = x.batch ∧ b ≠ [] ∧
        x.tick.instances = (x.dispatch b).instances ∧
        x.tick.stderr = (x.dispatch b).stderr)) ∧
    (∀ x : Module, x.live = true → x.pending = [] →
      ∃ x1, x.Stop = some x1 ∧ x1.instances = x.instances ∧ x1.stderr = x.stderr) := by
  obtain ⟨r1, r2, r3⟩ := worker_run m hb events
  exact ⟨rfl, r1, r2, r3, recv_call, tick_call, Stop_nothing_pending⟩

/-- Witness of C19: on the freshly started engine, whose batch is empty, the
trace of two writes, one receive and one tick hands the one batch with the
first entry to dispatch. -/
theorem worker_batch_bound_witness :
    openedModule.Start.batch.length < batchCap ∧
    (openedModule.Start.run roomyTrace).batch.length < batchCap ∧
    (∀ b ∈ openedModule.Start.dispatched roomyTrace, b ≠ [] ∧ b.length ≤ batchCap) ∧
    openedModule.Start.dispatched roomyTrace = [[earlyEntry]] ∧
    openedModule.Start.taken roomyTrace = [earlyEntry] :=
  ⟨by decide,
   (worker_batch_bound openedModule.Start (by decide) roomyTrace).2.1,
   (worker_batch_bound openedModule.Start (by decide) roomyTrace).2.2.1,
   rfl, rfl⟩

end BamgooLog
